import Mathlib

/-!
Verification development for `bytecode_toys.py` (plus its `testing.py` tests):
a shallow embedding of the byteplay-style symbolic instruction lists the
library manipulates, of its rewrite passes (`__smartdebug__`,
`__cache_globals__`, `__unprint__`, `__debuggable__`), of the
`LittleTimer` assembly (`timeit`, `__clone`) and of the small numeric
helpers, together with theorems about the specified properties.

Modelling conventions:
* byteplay instructions are pairs `(opcode, arg)`; a jump label definition
  is an instruction whose opcode slot holds the label itself, and
  `SetLineno` entries are inert line markers.  Labels are `Nat` identities.
* Python dictionaries appearing in the code (`func_globals`,
  `__builtins__`, `self.__locals`) are association lists.
* The Python object world reached through `getattr` is passed to the
  embedded passes as an explicit function, just as the real pass consults
  the ambient interpreter heap.
* Machine behaviour of a code object is given by resolving label references
  to absolute indices over the marker-free instruction list and running a
  fuel-indexed small-step interpreter.
-/

namespace BytecodeToys

/-- Python values, as far as the toys inspect them.  `obj` is an opaque
heap object (module, function, float, bound method ...) identified by a
display name; the passes only move such values around, never into them. -/
inductive PyVal where
  | int : Int → PyVal
  | pybool : Bool → PyVal
  | str : String → PyVal
  | pynone : PyVal
  | obj : String → PyVal
deriving DecidableEq, Repr

/-- Python truthiness, used by `func_globals.get('DEBUG',False)`. -/
def truthy : PyVal → Bool
  | .int n => n ≠ 0
  | .pybool b => b
  | .str s => s ≠ ""
  | .pynone => false
  | .obj _ => true

/-- `str(v)` as far as printing needs it (Python 2 softspace padding is
abstracted away; the claims only ever need "no output at all"). -/
def pyStr : PyVal → String
  | .int n => toString n
  | .pybool b => if b then "True" else "False"
  | .str s => s
  | .pynone => "None"
  | .obj s => s

/-- Opcodes occurring in the source.  `LabelMark l` is byteplay's label
definition pseudo-instruction (the opcode slot holds a `Label` object);
`SetLineno` is the line marker pseudo-instruction. -/
inductive Opcode where
  | LOAD_CONST | LOAD_GLOBAL | LOAD_FAST | LOAD_ATTR
  | STORE_FAST
  | POP_JUMP_IF_FALSE | POP_JUMP_IF_TRUE | JUMP_FORWARD
  | CALL_FUNCTION
  | POP_TOP | DUP_TOP | ROT_TWO
  | BINARY_ADD | BINARY_SUBTRACT | BINARY_DIVIDE
  | PRINT_ITEM | PRINT_NEWLINE | PRINT_ITEM_TO | PRINT_NEWLINE_TO
  | RETURN_VALUE
  | SetLineno
  | LabelMark : Nat → Opcode
deriving DecidableEq, Repr

/-- Instruction operands: nothing, a literal constant, a symbol name, a
jump-target label reference, or a small integer (call arity, line number). -/
inductive Arg where
  | none : Arg
  | const : PyVal → Arg
  | name : String → Arg
  | label : Nat → Arg
  | num : Nat → Arg
deriving DecidableEq, Repr

/-- One byteplay instruction: `(opcode, argument)`. -/
abbrev Instr := Opcode × Arg

instance : Inhabited Instr := ⟨(.POP_TOP, .none)⟩

/-- Marker opcodes: label definitions and line numbers (byteplay's
`isinstance(opcode, Label) or opcode == SetLineno`). -/
def isMarker : Opcode → Bool
  | .SetLineno => true
  | .LabelMark _ => true
  | _ => false

/-- Association-list counterpart of `dict.get`. -/
def lookupStr (m : List (String × PyVal)) (s : String) : Option PyVal :=
  match m with
  | [] => Option.none
  | (k, v) :: rest => if k = s then some v else lookupStr rest s

/-- Python slice read `s[a:b]` (for `0 ≤ a`, clamped at the ends). -/
def pySlice (s : List Instr) (a b : Nat) : List Instr :=
  (s.drop a).take (b - a)

/-- Python slice assignment `s[a:b] = repl` (for nonnegative bounds; when
`b < a` Python replaces nothing and inserts at `a`, hence the `max`). -/
def pySetSlice (s : List Instr) (a b : Nat) (repl : List Instr) : List Instr :=
  s.take a ++ repl ++ s.drop (max a b)

/-! ## `__smartdebug__` (bytecode_toys.py lines 403-464) -/

/-- The scan of `__smartdebug__`: offsets of `(LOAD_GLOBAL, 'DEBUG')`
instructions immediately followed by a conditional jump, collected in
reverse (descending) order via `debugs.insert(0, offset)`.  A byteplay code
list always ends in `RETURN_VALUE`, so the `offset+1` read is in range; the
out-of-range case is treated as a non-match to keep the function total. -/
def findDebugCond (s : List Instr) (i : Nat) : Bool :=
  decide (s.getD i default = (.LOAD_GLOBAL, .name "DEBUG")) &&
    (match s.get? (i + 1) with
     | some (op, _) => decide (op = .POP_JUMP_IF_FALSE) || decide (op = .POP_JUMP_IF_TRUE)
     | Option.none => false)

def findDebugs (s : List Instr) : List Nat :=
  ((List.range s.length).filter (findDebugCond s)).reverse

/-- `back_one`: step backwards over line markers and label definitions
until a real opcode (or offset 0) is reached. -/
def back_one (s : List Instr) : Nat → Nat
  | 0 => 0
  | x + 1 =>
    match s.get? (x + 1) with
    | some (op, _) => if isMarker op then back_one s x else x + 1
    | Option.none => x + 1

/-- `offset_of(L)`: index of the first instruction whose opcode slot is the
label carried by the argument `a` (byteplay's `op is L` identity test). -/
def offset_of (s : List Instr) (a : Arg) : Option Nat :=
  s.findIdx? fun ins =>
    match ins.1, a with
    | .LabelMark l, .label m => l = m
    | _, _ => false

/-- `true_false(x)`: classify the branch at `x` as a forward if/else and
return `((t0,t1),(f0,f1),(a,b))` bounds.  Faithful points: a label that
never occurs yields Python `None`, and `None < x` is true in Python 2, so
the occurrence is skipped; an unresolvable `L2` makes `O2 = None`, and a
`None` slice endpoint means "to the end of the list", modelled by
`s.length`. -/
def true_false (s : List Instr) (x : Nat) :
    Option ((Nat × Nat) × (Nat × Nat) × (Nat × Nat)) :=
  match s.get? (x + 1) with
  | Option.none => Option.none
  | some (pop_jump, L1) =>
    match offset_of s L1 with
    | Option.none => Option.none
    | some O1 =>
      if O1 < x then Option.none
      else
        let OJF := back_one s O1
        match s.get? OJF with
        | Option.none => Option.none
        | some (jf, L2) =>
          if jf ≠ .JUMP_FORWARD then Option.none
          else
            let O2 := (offset_of s L2).getD s.length
            if pop_jump = .POP_JUMP_IF_FALSE then
              some ((x + 2, OJF), (OJF + 1, O2), (x, O2))
            else
              some ((OJF + 1, O2), (x + 2, OJF), (x, O2))

/-- The rewrite loop of `__smartdebug__`: pop offsets (largest first) and
splice in the branch selected by the current truthiness of `DEBUG`. -/
def sdLoop (fg : List (String × PyVal)) : List Nat → List Instr → List Instr
  | [], s => s
  | x :: rest, s =>
    match true_false s x with
    | Option.none => sdLoop fg rest s
    | some ((t0, t1), (f0, f1), (a, b)) =>
      let chosen :=
        if truthy ((lookupStr fg "DEBUG").getD (.pybool false)) then
          pySlice s t0 t1
        else pySlice s f0 f1
      sdLoop fg rest (pySetSlice s a b chosen)

/-- `__smartdebug__(co, func_globals)` on the instruction list of `co`. -/
def smartdebug (fg : List (String × PyVal)) (s : List Instr) : List Instr :=
  sdLoop fg (findDebugs s) s

/-! ## `__cache_globals__` (bytecode_toys.py lines 349-380) -/

/-- The fold loop of `__cache_globals__`.  `ga` is the ambient `getattr`
(first argument: the *raw byteplay operand* of the predecessor — exactly
what the source passes; second: the `LOAD_ATTR` operand).  On an attribute
fold the two instructions merge and `pc` is left in place (`pc -= 1` then
`pc += 1`).  A byteplay code list starts with `SetLineno`, so `pc = 0`
never holds a `LOAD_ATTR`; that case advances to keep the recursion total
(Python would index from the far end and loop). -/
def cgLoop (ga : Arg → Arg → Option PyVal) (fg bi : List (String × PyVal)) :
    Nat → List Instr → Nat → List Instr
  | 0, code, _ => code
  | fuel + 1, code, pc =>
    if pc < code.length then
      let op := (code.getD pc default).1
      let arg := (code.getD pc default).2
      if op = .LOAD_GLOBAL then
        let looked :=
          match arg with
          | .name n =>
            match lookupStr fg n with
            | some c => some c
            | Option.none => lookupStr bi n
          | _ => Option.none
        match looked with
        | some c => cgLoop ga fg bi fuel (code.set pc (.LOAD_CONST, .const c)) (pc + 1)
        | Option.none => cgLoop ga fg bi fuel code (pc + 1)
      else if op = .LOAD_ATTR then
        match pc with
        | 0 => cgLoop ga fg bi fuel code 1
        | q + 1 =>
          let prev := code.getD q default
          match ga prev.2 arg with
          | some c =>
            cgLoop ga fg bi fuel
              (code.take q ++ [(.LOAD_CONST, .const c)] ++ code.drop (q + 2)) (q + 1)
          | Option.none => cgLoop ga fg bi fuel code (q + 2)
      else cgLoop ga fg bi fuel code (pc + 1)
    else code

/-- `__cache_globals__(co, func_globals)` on the instruction list of `co`,
with `bi` standing for the module's `__builtins__` dictionary.  Every
iteration of the `while` loop strictly decreases `code.length - pc` (a
global fold keeps the length and advances `pc`; an attribute fold shortens
the list by one at a fixed `pc`), so `code.length` iterations of fuel
always run the loop to completion. -/
def cache_globals (ga : Arg → Arg → Option PyVal)
    (fg bi : List (String × PyVal)) (code : List Instr) : List Instr :=
  cgLoop ga fg bi code.length code 0

/-- Names referenced by the instruction list (what byteplay's `to_code`
rebuilds into `co_names` for the opcodes used here). -/
def namesOf (s : List Instr) : List String :=
  s.filterMap fun ins =>
    match ins.1, ins.2 with
    | .LOAD_GLOBAL, .name n => some n
    | .LOAD_ATTR, .name n => some n
    | _, _ => Option.none

/-- Constants of the instruction list (what `to_code` rebuilds into
`co_consts`). -/
def constsOf (s : List Instr) : List PyVal :=
  s.filterMap fun ins =>
    match ins.1, ins.2 with
    | .LOAD_CONST, .const v => some v
    | _, _ => Option.none

/-! ## `__levels__` (bytecode_toys.py lines 480-493) -/

/-- byteplay's `getse(op, arg)`: per-opcode `(pop, push)` counts.  Markers
(and ill-typed call arities) yield `Option.none`, the embedding of the
`ValueError` that `__levels__` catches and turns into `(0, 0)`. -/
def getse : Opcode → Arg → Option (Nat × Nat)
  | .LOAD_CONST, _ => some (0, 1)
  | .LOAD_GLOBAL, _ => some (0, 1)
  | .LOAD_FAST, _ => some (0, 1)
  | .LOAD_ATTR, _ => some (1, 1)
  | .STORE_FAST, _ => some (1, 0)
  | .POP_JUMP_IF_FALSE, _ => some (1, 0)
  | .POP_JUMP_IF_TRUE, _ => some (1, 0)
  | .JUMP_FORWARD, _ => some (0, 0)
  | .CALL_FUNCTION, .num n => some (1 + n % 256 + 2 * (n / 256), 1)
  | .CALL_FUNCTION, _ => Option.none
  | .POP_TOP, _ => some (1, 0)
  | .DUP_TOP, _ => some (1, 2)
  | .ROT_TWO, _ => some (2, 2)
  | .BINARY_ADD, _ => some (2, 1)
  | .BINARY_SUBTRACT, _ => some (2, 1)
  | .BINARY_DIVIDE, _ => some (2, 1)
  | .PRINT_ITEM, _ => some (1, 0)
  | .PRINT_NEWLINE, _ => some (0, 0)
  | .PRINT_ITEM_TO, _ => some (2, 0)
  | .PRINT_NEWLINE_TO, _ => some (1, 0)
  | .RETURN_VALUE, _ => some (1, 0)
  | .SetLineno, _ => Option.none
  | .LabelMark _, _ => Option.none

/-- Net stack effect of one instruction (`push - pop`, markers count 0). -/
def eff (ins : Instr) : Int :=
  match getse ins.1 ins.2 with
  | some (pop, push) => (push : Int) - pop
  | Option.none => 0

/-- `__levels__`: the running stack level after each instruction, computed
by a straight linear scan (deliberately ignoring control flow). -/
def levelsFrom (level : Int) : List Instr → List Int
  | [] => []
  | ins :: rest =>
    let level := level + eff ins
    level :: levelsFrom level rest

/-- `__levels__(instructions)`. -/
def levelsOf (s : List Instr) : List Int := levelsFrom 0 s

/-- Python list read `levels[pc]` with an `Int` index (negative indices
count from the end; a still-out-of-range read would raise, modelled by 0,
which no claim exercises). -/
def pyLevelAt (levels : List Int) (pc : Int) : Int :=
  if pc ≥ 0 then levels.getD pc.toNat 0
  else levels.getD (levels.length - (-pc).toNat) 0

/-! ## `__unprint__` (bytecode_toys.py lines 495-548) -/

/-- Set-insert on the kill list (Python `set.add`). -/
def killAdd (kills : List Int) (i : Int) : List Int :=
  if i ∈ kills then kills else i :: kills

/-- The `while pc >= 0 and levels[pc] > target_level` walk of `killback`. -/
def killbackWalk (levels : List Int) (target : Int) (kills : List Int)
    (pc : Int) (fuel : Nat) : List Int × Int :=
  match fuel with
  | 0 => (kills, pc)
  | fuel + 1 =>
    if pc ≥ 0 ∧ pyLevelAt levels pc > target then
      killbackWalk levels target (killAdd kills pc) (pc - 1) fuel
    else (kills, pc)

/-- `killback(pc)`: mark `pc` and every earlier instruction still above the
level at `pc`; returns the updated kill set and the final (possibly `-1`)
cursor.  The walk moves strictly left, so `pc.toNat + 1` fuel is exact. -/
def killback (levels : List Int) (kills : List Int) (pc : Int) :
    List Int × Int :=
  let kills := killAdd kills pc
  let target := pyLevelAt levels pc
  killbackWalk levels target kills (pc - 1) (pc.toNat + 1)

/-- The forward scan that ends a `PRINT_ITEM_TO` chain: advance until a
`(PRINT_ITEM_TO, None)` is immediately followed by `POP_TOP` or
`PRINT_NEWLINE_TO`, then step past both.  (When the pattern is never found
Python's loop stops at the list end.) -/
def chainEnd (s : List Instr) : Nat → Nat → Nat
  | 0, pc => pc
  | fuel + 1, pc =>
    if pc < s.length then
      if decide (s.getD pc default = (.PRINT_ITEM_TO, .none)) &&
          (match s.get? (pc + 1) with
           | some (op, _) => decide (op = .POP_TOP) || decide (op = .PRINT_NEWLINE_TO)
           | Option.none => false) then
        pc + 2
      else chainEnd s fuel (pc + 1)
    else pc

/-- The main scan of `__unprint__` (one `for pc, (op, arg) in enumerate`
pass over the unmodified list, accumulating the kill set). -/
def unprintScan (s : List Instr) (levels : List Int) :
    Nat → Nat → List Int → List Int
  | 0, _, kills => kills
  | fuel + 1, pc, kills =>
    if pc < s.length then
      let next :=
        if (pc : Int) ∈ kills then kills
        else
          match (s.getD pc default).1 with
          | .PRINT_NEWLINE => killAdd kills pc
          | .PRINT_ITEM => (killback levels kills pc).1
          | .PRINT_ITEM_TO =>
            let kp := killback levels kills pc
            let kp2 := killback levels kp.1 kp.2
            let pcEnd := chainEnd s (s.length + 1) pc
            (List.range (pcEnd - pc)).foldl
              (fun ks i => killAdd ks (pc + i)) kp2.1
          | .PRINT_NEWLINE_TO => (killback levels kills pc).1
          | _ => kills
      unprintScan s levels fuel (pc + 1) next
    else kills

/-- `reversed(sorted(kills))`: the kill indices in descending order (the
kill set never holds duplicates, so any sort agrees with Python's). -/
def sortDesc (l : List Int) : List Int :=
  l.insertionSort fun a b => a ≥ b

/-- Python `del s[i]` with an `Int` index (negative counts from the end;
out of range leaves the list unchanged where Python would raise — the
kill set only holds in-range indices for real code lists). -/
def pyDelAt (s : List Instr) (i : Int) : List Instr :=
  if i ≥ 0 then
    if i.toNat < s.length then s.eraseIdx i.toNat else s
  else
    if (-i).toNat ≤ s.length then s.eraseIdx (s.length - (-i).toNat) else s

/-- `for x in reversed(sorted(kills)): del instructions[x]`. -/
def delKills (s : List Instr) (kills : List Int) : List Instr :=
  (sortDesc kills).foldl pyDelAt s

/-- `__unprint__(co)` on the instruction list of `co`; the `enumerate`
pass visits each position once, so `s.length` fuel runs it to the end. -/
def unprint (s : List Instr) : List Instr :=
  delKills s (unprintScan s (levelsOf s) s.length 0 [])

/-! ## `__debuggable__` (bytecode_toys.py lines 559-589) -/

/-- First index `j` in `[lo, len)` with `levels[j] == target`, else
`len - 1` (a Python `for` leaves the loop variable at its last value when
no `break` fires). -/
def findLevelIdx (levels : List Int) (target : Int) : Nat → Nat → Nat → Nat
  | 0, _, len => len - 1
  | fuel + 1, lo, len =>
    if lo < len then
      if levels.getD lo 0 = target then lo
      else findLevelIdx levels target fuel (lo + 1) len
    else len - 1

/-- The rewrite loop of `__debuggable__`: find `LOAD_GLOBAL DEBUG`, walk
forward to the first later position back at the same linear stack level
(the search starts at `expr_start + 2`, one past the increment), and if it
is a `CALL_FUNCTION` immediately followed by `POP_TOP`, delete the whole
span.  A real code list ends in `RETURN_VALUE`, so a `LOAD_GLOBAL` is
never at the last two offsets; those out-of-range reads are treated as a
non-match to keep the function total. -/
def dbgLoop : Nat → List Instr → Nat → List Instr
  | 0, code, _ => code
  | fuel + 1, code, pc =>
    if pc < code.length then
      if (code.getD pc default).1 = .LOAD_GLOBAL ∧ (code.getD pc default).2 = .name "DEBUG" then
        if pc + 2 < code.length then
          let n := findLevelIdx (levelsOf code) ((levelsOf code).getD pc 0)
            code.length (pc + 2) code.length
          if (code.getD n default).1 = .CALL_FUNCTION then
            match code.get? (n + 1) with
            | some ins =>
              if ins.1 = .POP_TOP then
                dbgLoop fuel (code.take pc ++ code.drop (n + 2)) (pc + 1)
              else dbgLoop fuel code (pc + 1)
            | Option.none => dbgLoop fuel code (pc + 1)
          else dbgLoop fuel code (pc + 1)
        else dbgLoop fuel code (pc + 1)
      else dbgLoop fuel code (pc + 1)
    else code

/-- `__debuggable__(co)` on the instruction list of `co`.  Every `while`
iteration strictly decreases `code.length - pc` (a deletion removes at
least three instructions while `pc` grows by one), so `code.length` fuel
runs the loop to completion. -/
def debuggableCore (code : List Instr) : List Instr :=
  dbgLoop code.length code 0

/-- The `debuggable` decorator (lines 591-602): skip the pass entirely
when the global `DEBUGGING` is truthy. -/
def debuggable (fg : List (String × PyVal)) (code : List Instr) : List Instr :=
  if truthy ((lookupStr fg "DEBUGGING").getD (.pybool false)) then code
  else debuggableCore code

/-! ## `LittleTimer.__clone` (bytecode_toys.py lines 303-312) -/

/-- Labels appearing as definition entries (opcode slot) of a block, in
order; the dict comprehension of `__clone` is keyed on exactly these. -/
def labelDefs (base : List Instr) : List Nat :=
  base.filterMap fun ins =>
    match ins.1 with
    | .LabelMark l => some l
    | _ => Option.none

/-- The remap dict of `__clone`, read off the definition entries the way
the dict comprehension builds it: the k-th label-definition entry is
bound to the k-th fresh `Label()` identity (`ctr + k`), a duplicated key
keeping its *last* binding. -/
def cloneTgtGo : List Nat → Nat → Nat → Option Nat
  | [], _, _ => Option.none
  | d :: rest, ctr, l =>
    match cloneTgtGo rest (ctr + 1) l with
    | some v => some v
    | Option.none => if d = l then some ctr else Option.none

/-- `targets.get(l)` of `__clone`. -/
def cloneTgt (base : List Instr) (ctr : Nat) (l : Nat) : Option Nat :=
  cloneTgtGo (labelDefs base) ctr l

/-- `LittleTimer.__clone(base)`: rewrite label definitions and label
references through the remap; anything not in the dict is kept
(`targets.get(x, x)`).  `ctr` models the supply of fresh `Label()`
identities. -/
def cloneB (base : List Instr) (ctr : Nat) : List Instr :=
  base.map fun ins =>
    (match ins.1 with
     | .LabelMark l =>
       match cloneTgt base ctr l with
       | some f => .LabelMark f
       | Option.none => ins.1
     | _ => ins.1,
     match ins.2 with
     | .label l =>
       match cloneTgt base ctr l with
       | some f => .label f
       | Option.none => ins.2
     | _ => ins.2)

/-! ## `LittleTimer.timeit` (bytecode_toys.py lines 229-301) -/

/-- The mutable fields of a `LittleTimer` that `timeit` touches.
`labelCtr` models the global supply of fresh `Label` identities. -/
structure TimerState where
  bytecodes : List Instr
  n : Nat
  locals : List (String × PyVal)
  line : Nat
  labelCtr : Nat
deriving DecidableEq, Repr

/-- The `for i in xrange(1, self.__n): instructions.extend(self.__clone(base))`
loop: `count` clones of `base`, each minting one fresh label per label
definition entry of `base`. -/
def cloneReps (base : List Instr) (ctr : Nat) : Nat → List Instr × Nat
  | 0 => ([], ctr)
  | count + 1 =>
    let cl := cloneB base ctr
    let (rest, ctr2) := cloneReps base (ctr + (labelDefs base).length) count
    (cl ++ rest, ctr2)

/-- The platform-selected clock (`time.clock` on Windows, `time.time`
elsewhere): per the design both are the injected monotonic clock
capability, modelled as one opaque constant. -/
def gettime : PyVal := .obj "gettime"

/-- The instruction-assembly part of `LittleTimer.timeit(n)`.  Faithful
points: `instructions` *is* `self.__bytecodes` (the Python local aliases
the attribute and every edit is in place), and `base` is a copy of that
list taken at entry; the per-local initializations are each prepended in
turn; the assembled body is both returned and left as the new
`self.__bytecodes`.  Returns the updated state and the assembled body. -/
def timeit (st : TimerState) (narg : Option Nat) : TimerState × List Instr :=
  let n := narg.getD st.n
  let instructions := st.bytecodes
  let base := instructions
  let (reps, ctr2) := cloneReps base st.labelCtr (n - 1)
  let instructions := instructions ++ reps
  let instructions :=
    [(.LOAD_CONST, .const gettime), (.CALL_FUNCTION, .num 0)] ++ instructions
  let instructions := instructions ++
    [(.LOAD_CONST, .const gettime), (.CALL_FUNCTION, .num 0),
     (.ROT_TWO, .none), (.BINARY_SUBTRACT, .none),
     (.LOAD_CONST, .const (.int n)), (.BINARY_DIVIDE, .none)]
  let instructions := st.locals.foldl
    (fun acc sv => [(.LOAD_CONST, .const sv.2), (.STORE_FAST, .name sv.1)] ++ acc)
    instructions
  let instructions := (.SetLineno, .num st.line) :: instructions
  let instructions := instructions ++ [(.RETURN_VALUE, .none)]
  ({ st with bytecodes := instructions, n := n, labelCtr := ctr2 }, instructions)

/-! ## The garbage-collection bracket of `timeit` (lines 294-300) -/

/-- Observable events of the `try/finally` bracket around the one timed
invocation. -/
inductive GcEvent where
  | collect | disable | callBody | enable
deriving DecidableEq, Repr

/-- `try: gc.collect(); if gc.isenabled(): gc.disable(); once = timerbody()
finally: gc.enable()`.  `enabled0` is the collector state on entry;
`body` is the timed invocation's outcome (`.error` = it raised).  Returns
the event trace, the collector state on exit, and the propagated
outcome — the `finally` clause runs on both the normal and the raising
path, which is why both branches append `enable`. -/
def timeitGc (enabled0 : Bool) (body : Except Unit PyVal) :
    List GcEvent × Bool × Except Unit PyVal :=
  let tryEvents :=
    [GcEvent.collect] ++ (if enabled0 then [GcEvent.disable] else []) ++
      [GcEvent.callBody]
  match body with
  | .ok v => (tryEvents ++ [GcEvent.enable], true, .ok v)
  | .error e => (tryEvents ++ [GcEvent.enable], true, .error e)

/-! ## `LittleTimer.time_errorbar` (lines 340-346) -/

/-- Python division with its `ZeroDivisionError`; clock arithmetic is
modelled over exact rationals (the claim is about raising and branch
selection, not float rounding). -/
def pyDivQ (a : ℚ) (n : Int) : Except String ℚ :=
  if n = 0 then .error "ZeroDivisionError" else .ok (a / n)

/-- `time_errorbar`: `try: return 2*self.tick/self.__n
except ZeroDivisionError: return 2*self.tick`. -/
def time_errorbar (tick : ℚ) (n : Int) : Except String ℚ :=
  match pyDivQ (2 * tick) n with
  | .ok v => .ok v
  | .error _ => .ok (2 * tick)

/-! ## Behaviour: resolved programs and a fuel-indexed interpreter

byteplay label references are symbolic; behaviour of an instruction list
is that of its marker-free projection with each label reference resolved
to the index (among real instructions) of its first definition marker. -/

/-- A resolved instruction: jumps carry absolute indices into the resolved
program.  `invalid` stands for an operand/opcode combination byteplay
could not assemble; executing it gets stuck. -/
inductive RInstr where
  | loadConst : PyVal → RInstr
  | loadGlobal : String → RInstr
  | loadFast : String → RInstr
  | loadAttr : String → RInstr
  | storeFast : String → RInstr
  | pjif : Nat → RInstr
  | pjit : Nat → RInstr
  | jumpF : Nat → RInstr
  | callFn : Nat → RInstr
  | popTop | dupTop | rotTwo
  | binAdd | binSub | binDiv
  | printItem | printNewline | printItemTo | printNewlineTo
  | ret
  | invalid
deriving DecidableEq, Repr

/-- Index, among real (non-marker) instructions, of the first definition
marker of label `l`; the real-instruction count of the whole list when `l`
is never defined (a jump there falls off the program). -/
def labelTarget (s : List Instr) (l : Nat) : Nat :=
  match s with
  | [] => 0
  | ins :: rest =>
    match ins.1 with
    | .LabelMark m => if m = l then 0 else labelTarget rest l
    | .SetLineno => labelTarget rest l
    | _ => 1 + labelTarget rest l

/-- Resolve one instruction against the whole list (markers drop out). -/
def resolveInstr (s : List Instr) (ins : Instr) : Option RInstr :=
  match ins.1, ins.2 with
  | .SetLineno, _ => Option.none
  | .LabelMark _, _ => Option.none
  | .LOAD_CONST, .const v => some (.loadConst v)
  | .LOAD_GLOBAL, .name m => some (.loadGlobal m)
  | .LOAD_FAST, .name m => some (.loadFast m)
  | .LOAD_ATTR, .name m => some (.loadAttr m)
  | .STORE_FAST, .name m => some (.storeFast m)
  | .POP_JUMP_IF_FALSE, .label l => some (.pjif (labelTarget s l))
  | .POP_JUMP_IF_TRUE, .label l => some (.pjit (labelTarget s l))
  | .JUMP_FORWARD, .label l => some (.jumpF (labelTarget s l))
  | .CALL_FUNCTION, .num k => some (.callFn k)
  | .POP_TOP, _ => some .popTop
  | .DUP_TOP, _ => some .dupTop
  | .ROT_TWO, _ => some .rotTwo
  | .BINARY_ADD, _ => some .binAdd
  | .BINARY_SUBTRACT, _ => some .binSub
  | .BINARY_DIVIDE, _ => some .binDiv
  | .PRINT_ITEM, _ => some .printItem
  | .PRINT_NEWLINE, _ => some .printNewline
  | .PRINT_ITEM_TO, _ => some .printItemTo
  | .PRINT_NEWLINE_TO, _ => some .printNewlineTo
  | .RETURN_VALUE, _ => some .ret
  | _, _ => some .invalid

/-- The resolved program of an instruction list. -/
def resolveJumps (s : List Instr) : List RInstr :=
  s.filterMap (resolveInstr s)

/-- Interpreter state: operand stack, local bindings, output written so
far (one entry per `PRINT` write). -/
structure VMState where
  stack : List PyVal
  locals : List (String × PyVal)
  output : List String
deriving DecidableEq, Repr

/-- Local assignment; the freshest binding shadows older ones, which is
observationally a dict update under first-match lookup. -/
def setLocal (loc : List (String × PyVal)) (s : String) (v : PyVal) :
    List (String × PyVal) :=
  (s, v) :: loc

/-- `a + b` for the value shapes the toys execute. -/
def pyAdd : PyVal → PyVal → Option PyVal
  | .int a, .int b => some (.int (a + b))
  | .str a, .str b => some (.str (a ++ b))
  | _, _ => Option.none

/-- Result of executing one resolved instruction. -/
inductive StepRes where
  | cont : Nat → VMState → StepRes
  | ret : PyVal → List String → StepRes
  | stuck : StepRes
deriving DecidableEq, Repr

/-- One step of the resolved-program machine at `pc`.  `stuck` is any
failure (fall off the end, unresolved jump, unbound name, unsupported
operation). -/
def stepI (prog : List RInstr) (globals : List (String × PyVal)) (pc : Nat)
    (st : VMState) : StepRes :=
  match prog.get? pc with
  | Option.none => .stuck
  | some i =>
    match i with
    | .loadConst v => .cont (pc + 1) { st with stack := v :: st.stack }
    | .loadGlobal s =>
      match lookupStr globals s with
      | some v => .cont (pc + 1) { st with stack := v :: st.stack }
      | Option.none => .stuck
    | .loadFast s =>
      match lookupStr st.locals s with
      | some v => .cont (pc + 1) { st with stack := v :: st.stack }
      | Option.none => .stuck
    | .storeFast s =>
      match st.stack with
      | v :: rest =>
        .cont (pc + 1) { stack := rest, locals := setLocal st.locals s v, output := st.output }
      | [] => .stuck
    | .pjif t =>
      match st.stack with
      | v :: rest =>
        if truthy v then .cont (pc + 1) { st with stack := rest }
        else .cont t { st with stack := rest }
      | [] => .stuck
    | .pjit t =>
      match st.stack with
      | v :: rest =>
        if truthy v then .cont t { st with stack := rest }
        else .cont (pc + 1) { st with stack := rest }
      | [] => .stuck
    | .jumpF t => .cont t st
    | .popTop =>
      match st.stack with
      | _ :: rest => .cont (pc + 1) { st with stack := rest }
      | [] => .stuck
    | .dupTop =>
      match st.stack with
      | v :: rest => .cont (pc + 1) { st with stack := v :: v :: rest }
      | [] => .stuck
    | .rotTwo =>
      match st.stack with
      | a :: b :: rest => .cont (pc + 1) { st with stack := b :: a :: rest }
      | _ => .stuck
    | .binAdd =>
      match st.stack with
      | b :: a :: rest =>
        match pyAdd a b with
        | some c => .cont (pc + 1) { st with stack := c :: rest }
        | Option.none => .stuck
      | _ => .stuck
    | .printItem =>
      match st.stack with
      | v :: rest =>
        .cont (pc + 1) { st with stack := rest, output := st.output ++ [pyStr v] }
      | [] => .stuck
    | .printNewline => .cont (pc + 1) { st with output := st.output ++ ["\n"] }
    | .printItemTo =>
      match st.stack with
      | _ :: v :: rest =>
        .cont (pc + 1) { st with stack := rest, output := st.output ++ [pyStr v] }
      | _ => .stuck
    | .printNewlineTo =>
      match st.stack with
      | _ :: rest =>
        .cont (pc + 1) { st with stack := rest, output := st.output ++ ["\n"] }
      | [] => .stuck
    | .ret =>
      match st.stack with
      | v :: _ => .ret v st.output
      | [] => .stuck
    | .binSub | .binDiv | .callFn _ | .loadAttr _ | .invalid => .stuck

/-- Run a resolved program.  `Option.none` is divergence or stuckness;
`some (v, out)` is a normal return of `v` having written `out`. -/
def execGo (prog : List RInstr) (globals : List (String × PyVal)) :
    Nat → Nat → VMState → Option (PyVal × List String)
  | 0, _, _ => Option.none
  | fuel + 1, pc, st =>
    match stepI prog globals pc st with
    | .cont pc2 st2 => execGo prog globals fuel pc2 st2
    | .ret v out => some (v, out)
    | .stuck => Option.none

/-- Behaviour of an instruction list: run its resolved program from an
empty stack with the given globals and locals. -/
def execFun (s : List Instr) (globals locals : List (String × PyVal))
    (fuel : Nat) : Option (PyVal × List String) :=
  execGo (resolveJumps s) globals fuel 0 ⟨[], locals, []⟩

/-! ## Concrete code objects from `testing.py` -/

/-- byteplay form of `g(x): if DEBUG: x = 10 ; return x`
(testing.py lines 51-54; CPython 2.7 emits the trailing `JUMP_FORWARD`
even without an `else`, and both jumps share the one merge label). -/
def gCode : List Instr :=
  [(.SetLineno, .num 52),
   (.LOAD_GLOBAL, .name "DEBUG"),
   (.POP_JUMP_IF_FALSE, .label 0),
   (.SetLineno, .num 53),
   (.LOAD_CONST, .const (.int 10)),
   (.STORE_FAST, .name "x"),
   (.JUMP_FORWARD, .label 0),
   (.LabelMark 0, .none),
   (.SetLineno, .num 54),
   (.LOAD_FAST, .name "x"),
   (.RETURN_VALUE, .none)]

/-- byteplay form of `f(x): return math.sin(x) + math.pi`
(testing.py lines 63-64). -/
def hCode : List Instr :=
  [(.SetLineno, .num 64),
   (.LOAD_GLOBAL, .name "math"),
   (.LOAD_ATTR, .name "sin"),
   (.LOAD_FAST, .name "x"),
   (.CALL_FUNCTION, .num 1),
   (.LOAD_GLOBAL, .name "math"),
   (.LOAD_ATTR, .name "pi"),
   (.BINARY_ADD, .none),
   (.RETURN_VALUE, .none)]

/-- The interpreter heap's `getattr` as the `math` scenario sees it: the
`math` module object exposes its `sin` function and `pi` float. -/
def gaMath : Arg → Arg → Option PyVal := fun a attr =>
  match a, attr with
  | .const (.obj "math"), .name "sin" => some (.obj "math.sin")
  | .const (.obj "math"), .name "pi" => some (.obj "math.pi")
  | _, _ => Option.none

/-- byteplay form of `t(x): x.upper()` — a method call on a local. -/
def c5Code : List Instr :=
  [(.SetLineno, .num 1),
   (.LOAD_FAST, .name "x"),
   (.LOAD_ATTR, .name "upper"),
   (.CALL_FUNCTION, .num 0),
   (.POP_TOP, .none),
   (.LOAD_CONST, .const .pynone),
   (.RETURN_VALUE, .none)]

/-- The heap's `getattr` restricted to what the `c5Code` run touches: a
Python 2 *string* has an `upper` attribute (every byteplay `LOAD_FAST`
operand is a name string), so `getattr('x', 'upper')` succeeds. -/
def gaStr : Arg → Arg → Option PyVal := fun a attr =>
  match a, attr with
  | .name s, .name "upper" => some (.obj ("bound-method-upper-of-" ++ s))
  | _, _ => Option.none

/-- byteplay form of `f(x): print x ; print 'hello, world!', ; return`
(testing.py lines 23-26). -/
def fCode : List Instr :=
  [(.SetLineno, .num 24),
   (.LOAD_FAST, .name "x"),
   (.PRINT_ITEM, .none),
   (.PRINT_NEWLINE, .none),
   (.SetLineno, .num 25),
   (.LOAD_CONST, .const (.str "hello, world!")),
   (.PRINT_ITEM, .none),
   (.SetLineno, .num 26),
   (.LOAD_CONST, .const .pynone),
   (.RETURN_VALUE, .none)]

/-- byteplay form of `f(c): print (1 if c else 2)` — a print whose operand
contains a forward branch. -/
def f3Code : List Instr :=
  [(.SetLineno, .num 2),
   (.LOAD_FAST, .name "c"),
   (.POP_JUMP_IF_FALSE, .label 0),
   (.LOAD_CONST, .const (.int 1)),
   (.JUMP_FORWARD, .label 1),
   (.LabelMark 0, .none),
   (.LOAD_CONST, .const (.int 2)),
   (.LabelMark 1, .none),
   (.PRINT_ITEM, .none),
   (.PRINT_NEWLINE, .none),
   (.LOAD_CONST, .const .pynone),
   (.RETURN_VALUE, .none)]

/-- byteplay form of `f(): DEBUG() ; return` — a discarded zero-argument
call of the marker symbol. -/
def c7Code : List Instr :=
  [(.SetLineno, .num 1),
   (.LOAD_GLOBAL, .name "DEBUG"),
   (.CALL_FUNCTION, .num 0),
   (.POP_TOP, .none),
   (.LOAD_CONST, .const .pynone),
   (.RETURN_VALUE, .none)]

/-- A captured timer block: `1` evaluated and discarded. -/
def timerBlock : List Instr :=
  [(.LOAD_CONST, .const (.int 1)), (.POP_TOP, .none)]

/-- A `LittleTimer` right after `__enter__` captured `timerBlock` with
`n = 2`, no referenced locals, at line 7. -/
def timerSt0 : TimerState := ⟨timerBlock, 2, [], 7, 0⟩

/-! ## The forward if/else shape of `__smartdebug__` -/

/-- The compiled forward if/else shape on the flag (§ "most ifs look
like"): flag load, conditional branch to `l1`, true block `T`, jump to the
merge label `l2`, the `l1` marker, false block `F`, the `l2` marker. -/
def sdShape (pre T F post : List Instr) (l1 l2 : Nat) : List Instr :=
  pre ++ [(.LOAD_GLOBAL, .name "DEBUG"), (.POP_JUMP_IF_FALSE, .label l1)] ++ T ++
    [(.JUMP_FORWARD, .label l2), (.LabelMark l1, .none)] ++ F ++
    [(.LabelMark l2, .none)] ++ post

/-- Freshness of the shape's flag and labels relative to a fragment: the
fragment holds no further flag load and neither defines nor references
`l1`/`l2`. -/
def cleanFor (l1 l2 : Nat) (xs : List Instr) : Bool :=
  xs.all fun ins =>
    !(decide (ins = ((.LOAD_GLOBAL : Opcode), (.name "DEBUG" : Arg)))) &&
    !(decide (ins.1 = .LabelMark l1)) && !(decide (ins.1 = .LabelMark l2)) &&
    !(decide (ins.2 = .label l1)) && !(decide (ins.2 = .label l2))

/-! ## Label inventories (for the cloning claims) -/

/-- Labels referenced as jump targets in a block. -/
def refLabels (s : List Instr) : List Nat :=
  s.filterMap fun ins =>
    match ins.2 with
    | .label l => some l
    | _ => Option.none

/-- Every label identity occurring in a block, as definition or reference. -/
def labelsOf (s : List Instr) : List Nat :=
  labelDefs s ++ refLabels s

/-- Rewrite every label definition and reference through `f`. -/
def relabel (f : Nat → Nat) (s : List Instr) : List Instr :=
  s.map fun ins =>
    (match ins.1 with
     | .LabelMark l => .LabelMark (f l)
     | op => op,
     match ins.2 with
     | .label l => .label (f l)
     | a => a)

/-! ## A straight-line statement language (the print pattern `__unprint__`
was built for): assignments and print statements over pure operand
expressions, compiled exactly as CPython 2.7 compiles them. -/

/-- Pure operand expressions: literals, locals, `+`. -/
inductive PExpr where
  | econst : PyVal → PExpr
  | evar : String → PExpr
  | eadd : PExpr → PExpr → PExpr

/-- CPython 2.7 code for an expression (leaves its value on the stack). -/
def compileE : PExpr → List Instr
  | .econst v => [(.LOAD_CONST, .const v)]
  | .evar s => [(.LOAD_FAST, .name s)]
  | .eadd a b => compileE a ++ compileE b ++ [(.BINARY_ADD, .none)]

/-- Straight-line statements: `x = e`, `print e` (`newline = false` for
the trailing-comma form `print e,`). -/
inductive PStmt where
  | sassign : String → PExpr → PStmt
  | sprint : PExpr → Bool → PStmt

/-- Is the statement a print statement? -/
def isPrintStmt : PStmt → Bool
  | .sprint _ _ => true
  | .sassign _ _ => false

/-- CPython 2.7 code for one statement. -/
def compileS : PStmt → List Instr
  | .sassign x e => compileE e ++ [(.STORE_FAST, .name x)]
  | .sprint e nl =>
    compileE e ++ [(.PRINT_ITEM, .none)] ++
      (if nl then [(.PRINT_NEWLINE, .none)] else [])

/-- CPython 2.7 code for a function body: line marker, the statements,
then `return ret`. -/
def compileF (body : List PStmt) (ret : PExpr) : List Instr :=
  (.SetLineno, .num 1) :: ((body.map compileS).flatten ++ compileE ret ++ [(.RETURN_VALUE, .none)])

/-- Reference semantics of an expression. -/
def evalE (loc : List (String × PyVal)) : PExpr → Option PyVal
  | .econst v => some v
  | .evar s => lookupStr loc s
  | .eadd a b =>
    match evalE loc a, evalE loc b with
    | some x, some y => pyAdd x y
    | _, _ => Option.none

/-- Reference semantics of one statement: new locals and written output. -/
def evalS (loc : List (String × PyVal)) : PStmt →
    Option (List (String × PyVal) × List String)
  | .sassign x e => (evalE loc e).map fun v => (setLocal loc x v, [])
  | .sprint e nl =>
    (evalE loc e).map fun v => (loc, [pyStr v] ++ if nl then ["\n"] else [])

/-- Reference semantics of a statement list. -/
def evalBody (loc : List (String × PyVal)) :
    List PStmt → Option (List (String × PyVal) × List String)
  | [] => some (loc, [])
  | st :: rest =>
    match evalS loc st with
    | some (loc2, out) =>
      match evalBody loc2 rest with
      | some (loc3, out2) => some (loc3, out ++ out2)
      | Option.none => Option.none
    | Option.none => Option.none

/-- Output-producing opcodes. -/
def isPrintOp : Opcode → Bool
  | .PRINT_ITEM => true
  | .PRINT_NEWLINE => true
  | .PRINT_ITEM_TO => true
  | .PRINT_NEWLINE_TO => true
  | _ => false

/-- Jump opcodes (their resolution consults the whole list). -/
def isJumpOp : Opcode → Bool
  | .POP_JUMP_IF_FALSE => true
  | .POP_JUMP_IF_TRUE => true
  | .JUMP_FORWARD => true
  | _ => false

/-- Output-producing resolved instructions. -/
def isPrintR : RInstr → Bool
  | .printItem => true
  | .printNewline => true
  | .printItemTo => true
  | .printNewlineTo => true
  | _ => false

/-- Resolved instructions that can move `pc` anywhere but one forward. -/
def isJumpR : RInstr → Bool
  | .pjif _ => true
  | .pjit _ => true
  | .jumpF _ => true
  | _ => false

/-- Net stack effect of a whole fragment. -/
def esum (s : List Instr) : Int := (s.map eff).sum

/-- `[lo, lo+1, ..., lo+m-1]` as `Int` indices. -/
def intRange (lo m : Nat) : List Int :=
  (List.range' lo m).map (Nat.cast : Nat → Int)

/-- Does index `k` fall in the compiled span of some print statement of
`stmts`, the first statement starting at offset `pos`? -/
def spanB (pos : Nat) : List PStmt → Int → Bool
  | [], _ => false
  | st :: rest, k =>
    (isPrintStmt st && decide ((pos : Int) ≤ k) &&
      decide (k < (pos : Int) + ((compileS st).length : Int))) ||
    spanB (pos + (compileS st).length) rest k

/-- Keep the elements whose (absolute, starting at `off`) index is not in
the kill set — the effect of deleting a set of distinct indices in
descending order. -/
def keepIdxFrom (off : Nat) (K : List Int) : List Instr → List Instr
  | [] => []
  | x :: xs =>
    (if (off : Int) ∈ K then [] else [x]) ++ keepIdxFrom (off + 1) K xs

/-- Context-free resolution (correct for non-jump instructions). -/
def rOf (ins : Instr) : Option RInstr := resolveInstr [] ins

/-- The search predicate of `offset_of` specialised to a label argument. -/
def sdPred (l : Nat) (ins : Instr) : Bool :=
  match ins.1 with
  | .LabelMark m => decide (m = l)
  | _ => false

/-- The resolved program of `compileE e` (the code is jump- and
marker-free, so resolution is context-free and drops nothing). -/
def rE : PExpr → List RInstr
  | .econst v => [.loadConst v]
  | .evar s => [.loadFast s]
  | .eadd a b => rE a ++ rE b ++ [.binAdd]

/-- The resolved program of `compileS st`. -/
def rS : PStmt → List RInstr
  | .sassign x e => rE e ++ [.storeFast x]
  | .sprint e nl => rE e ++ [.printItem] ++ (if nl then [.printNewline] else [])

/-- The resolved program of a compiled statement list. -/
def rB (stmts : List PStmt) : List RInstr := (stmts.map rS).flatten

/-- The statement list of `f` from `test_unprint` (testing.py lines 23-26):
`print x` then `print 'hello, world!',`. -/
def c3Body : List PStmt :=
  [.sprint (.evar "x") true, .sprint (.econst (.str "hello, world!")) false]

/-- `f` returns `None`. -/
def c3Ret : PExpr := .econst .pynone

/-! # Theorems -/

/-- C10: reading `LittleTimer.time_errorbar` never raises for any
replication count `n`: it returns `2*tick/n` when `n ≠ 0` and `2*tick`
through the `ZeroDivisionError` handler when `n = 0`. -/
theorem C10_time_errorbar_never_raises (tick : ℚ) (n : Int) :
    time_errorbar tick n = .ok (if n = 0 then 2 * tick else 2 * tick / n) := by
  unfold time_errorbar pyDivQ
  by_cases h : n = 0 <;> simp [h]

/-- C9: the gc bracket of `timeit` forces exactly one collection, then
disables automatic collection (when it was enabled), invokes the
assembled body exactly once, and on both the normal and the raising exit
path the `finally` clause leaves automatic collection enabled, the
`enable` call being the last gc action. -/
theorem C9_gc_bracket_restores (enabled0 : Bool) (body : Except Unit PyVal) :
    (timeitGc enabled0 body).2.1 = true ∧
    (timeitGc enabled0 body).1.getLast? = some .enable ∧
    (timeitGc enabled0 body).1.count .callBody = 1 ∧
    (timeitGc enabled0 body).1.count .collect = 1 ∧
    (timeitGc enabled0 body).1.head? = some .collect ∧
    (timeitGc enabled0 body).2.2 = body := by
  cases body <;> cases enabled0 <;>
    simp [timeitGc, List.count_cons, List.count_nil, List.getLast?]

/-- C2: Global Folding on `h(x) = math.sin(x) + math.pi` under bindings
resolving `math`: the result references no name at all (in particular
neither `math` nor `sin` nor `pi`), and its constant pool holds the
resolved `sin` function object and the resolved value of `pi`. -/
theorem C2_cache_globals_math_scenario :
    cache_globals gaMath [("math", .obj "math")] [] hCode =
      [(.SetLineno, .num 64),
       (.LOAD_CONST, .const (.obj "math.sin")),
       (.LOAD_FAST, .name "x"),
       (.CALL_FUNCTION, .num 1),
       (.LOAD_CONST, .const (.obj "math.pi")),
       (.BINARY_ADD, .none),
       (.RETURN_VALUE, .none)] ∧
    "math" ∉ namesOf (cache_globals gaMath [("math", .obj "math")] [] hCode) ∧
    "sin" ∉ namesOf (cache_globals gaMath [("math", .obj "math")] [] hCode) ∧
    "pi" ∉ namesOf (cache_globals gaMath [("math", .obj "math")] [] hCode) ∧
    PyVal.obj "math.sin" ∈ constsOf (cache_globals gaMath [("math", .obj "math")] [] hCode) ∧
    PyVal.obj "math.pi" ∈ constsOf (cache_globals gaMath [("math", .obj "math")] [] hCode) := by
  decide

/-- C5: the attribute-fold of Global Folding never checks what the
predecessor instruction is: on `t(x): x.upper()` (predecessor is
`LOAD_FAST x`, not a folded literal) it applies `getattr` to the *name
string* `"x"`, finds the string method `upper`, and merges the pair into a
constant load, deleting the `LOAD_FAST` — where the claim requires the
`LOAD_ATTR` to be left unchanged. -/
theorem C5_attr_fold_ignores_predecessor :
    cache_globals gaStr [] [] c5Code =
      [(.SetLineno, .num 1),
       (.LOAD_CONST, .const (.obj "bound-method-upper-of-x")),
       (.CALL_FUNCTION, .num 0),
       (.POP_TOP, .none),
       (.LOAD_CONST, .const .pynone),
       (.RETURN_VALUE, .none)] ∧
    (.LOAD_FAST, .name "x") ∉ cache_globals gaStr [] [] c5Code := by
  decide

/-- C7: with the marker inactive, the discarded zero-argument call
`DEBUG()` is left completely intact (the `CALL_FUNCTION` search starts one
position past it), so the marker symbol still appears after the pass;
with `DEBUGGING` truthy the decorator does return the function
unchanged. -/
theorem C7_zero_arg_marker_call_survives :
    debuggableCore c7Code = c7Code ∧
    (.LOAD_GLOBAL, .name "DEBUG") ∈ debuggableCore c7Code ∧
    debuggable [("DEBUGGING", .pybool true)] c7Code = c7Code := by
  decide

/-- C4: re-running `timeit` replicates the previously *assembled* body
(the alias `instructions = self.__bytecodes` was mutated in place), not
the originally captured block: after `timeit(2); timeit(2)` on a captured
two-instruction block the new body embeds two full previous bodies —
three `RETURN_VALUE`s and six clock loads — where the claimed assembly
has exactly one `RETURN_VALUE` and, for N = 2, two clock loads. -/
theorem C4_timeit_rerun_replicates_assembled_body :
    ((timeit timerSt0 (some 2)).2.filter fun i => i.1 = .RETURN_VALUE).length = 1 ∧
    ((timeit timerSt0 (some 2)).2.filter fun i => i = (.LOAD_CONST, .const gettime)).length = 2 ∧
    ((timeit (timeit timerSt0 (some 2)).1 (some 2)).2.filter
      fun i => i.1 = .RETURN_VALUE).length = 3 ∧
    ((timeit (timeit timerSt0 (some 2)).1 (some 2)).2.filter
      fun i => i = (.LOAD_CONST, .const gettime)).length = 6 := by
  decide

/-- C6 counterexample: on a matched forward if/else shape the pruned
sequence still contains the merge-label marker `L2` (the replaced slice
`instructions[a:b]` stops just *before* `offset_of(L2)`), refuting "no
merge-label marker remains". -/
theorem C6_counterexample_merge_label_remains :
    (.LabelMark 1, .none) ∈
      smartdebug [("DEBUG", .pybool true)]
        (sdShape [(.SetLineno, .num 1)]
          [(.LOAD_CONST, .const (.int 1)), (.STORE_FAST, .name "y")]
          [(.LOAD_CONST, .const (.int 2)), (.STORE_FAST, .name "y")]
          [(.LOAD_CONST, .const .pynone), (.RETURN_VALUE, .none)] 0 1) := by
  decide

/-! ## Structure of `__smartdebug__` on a matched forward if/else -/

/-- Unpack the `cleanFor` freshness check. -/
theorem cleanFor_spec {l1 l2 : Nat} {xs : List Instr} (h : cleanFor l1 l2 xs = true) :
    ∀ ins ∈ xs, ins ≠ ((.LOAD_GLOBAL : Opcode), (.name "DEBUG" : Arg)) ∧
      ins.1 ≠ .LabelMark l1 ∧ ins.1 ≠ .LabelMark l2 ∧
      ins.2 ≠ .label l1 ∧ ins.2 ≠ .label l2 := by
  intro ins hins
  unfold cleanFor at h
  rw [List.all_eq_true] at h
  have h2 := h ins hins
  simp only [Bool.and_eq_true, Bool.not_eq_true', decide_eq_false_iff_not] at h2
  exact ⟨h2.1.1.1.1, h2.1.1.1.2, h2.1.1.2, h2.1.2, h2.2⟩

/-- A `filter` over `range n` whose condition holds exactly at `k`. -/
theorem filter_range_singleton (cond : Nat → Bool) (n k : Nat) (hk : k < n)
    (h : ∀ i, i < n → (cond i = true ↔ i = k)) :
    (List.range n).filter cond = [k] := by
  induction n with
  | zero => omega
  | succ n ih =>
    rw [List.range_succ, List.filter_append]
    by_cases hkn : k = n
    · subst hkn
      have h1 : (List.range k).filter cond = [] := by
        rw [List.filter_eq_nil_iff]
        intro a ha
        rw [List.mem_range] at ha
        intro hc
        have := (h a (by omega)).mp hc
        omega
      have h2 : cond k = true := (h k (by omega)).mpr rfl
      simp [h1, h2]
    · have hk2 : k < n := by omega
      have h2 : cond n = false := by
        by_cases hc : cond n = true
        · exact absurd ((h n (by omega)).mp hc) (by omega)
        · simp at hc; exact hc
      rw [ih hk2 fun i hi => h i (by omega)]
      simp [h2]

/-- `offset_of` with a label argument is a `findIdx?` for its definition
marker. -/
theorem offset_of_eq_findIdx (s : List Instr) (l : Nat) :
    offset_of s (.label l) = s.findIdx? (sdPred l) := by
  unfold offset_of sdPred
  congr 1
  funext ins
  obtain ⟨op, arg⟩ := ins
  cases op <;> rfl

/-- The marker search fails over a fragment that never defines the label. -/
theorem findIdx_sdPred_none {l : Nat} {A : List Instr}
    (hA : ∀ ins ∈ A, ins.1 ≠ .LabelMark l) : A.findIdx? (sdPred l) = Option.none := by
  rw [List.findIdx?_eq_none_iff]
  intro ins hins
  unfold sdPred
  obtain ⟨op, arg⟩ := ins
  have hop := hA (op, arg) hins
  cases op <;> simp_all

/-- Skip a label-free prefix in the marker search. -/
theorem findIdx_sdPred_append {l : Nat} {A B : List Instr}
    (hA : ∀ ins ∈ A, ins.1 ≠ .LabelMark l) :
    (A ++ B).findIdx? (sdPred l) = (B.findIdx? (sdPred l)).map (· + A.length) := by
  rw [List.findIdx?_append, findIdx_sdPred_none hA]
  rfl

/-- The marker search succeeds immediately at a definition marker. -/
theorem findIdx_sdPred_hit (l : Nat) (a : Arg) (B : List Instr) :
    (((.LabelMark l, a) : Instr) :: B).findIdx? (sdPred l) = some 0 := by
  simp [List.findIdx?_cons, sdPred]

/-- `back_one` from a lone marker just after a real instruction lands on
the real instruction (or on offset 0 when the marker opens the list). -/
theorem back_one_result (s : List Instr) (m : Nat)
    (h1 : ∃ p : Instr, s.get? (m + 1) = some p ∧ isMarker p.1 = true)
    (h0 : m = 0 ∨ ∃ p : Instr, s.get? m = some p ∧ isMarker p.1 = false) :
    back_one s (m + 1) = m := by
  obtain ⟨p, hp, hmk⟩ := h1
  unfold back_one
  rw [hp]
  simp only [hmk, if_true]
  rcases h0 with h0 | ⟨q, hq, hqf⟩
  · subst h0; rfl
  · cases m with
    | zero => rfl
    | succ k =>
      unfold back_one
      rw [hq]
      simp [hqf]

/-- Only index `A.length` of `A ++ v :: B` reads back `v` when `v` occurs
in neither side. -/
theorem getElem?_unique {A B : List Instr} {v : Instr} (hA : v ∉ A) (hB : v ∉ B) :
    ∀ i, (A ++ v :: B).get? i = some v ↔ i = A.length := by
  intro i
  rw [List.get?_eq_getElem?]
  constructor
  · intro h
    by_contra hne
    by_cases hlt : i < A.length
    · rw [List.getElem?_append_left hlt] at h
      obtain ⟨hlt2, hv⟩ := List.getElem?_eq_some_iff.mp h
      exact hA (hv ▸ List.getElem_mem hlt2)
    · rw [List.getElem?_append_right (by omega)] at h
      have hpos : 0 < i - A.length := by omega
      rcases Nat.exists_eq_add_of_lt hpos with ⟨j, hj⟩
      rw [show i - A.length = j + 1 by omega] at h
      simp only [List.getElem?_cons_succ] at h
      obtain ⟨hlt2, hv⟩ := List.getElem?_eq_some_iff.mp h
      exact hB (hv ▸ List.getElem_mem hlt2)
  · intro h
    subst h
    rw [List.getElem?_append_right (le_refl _)]
    simp

/-- Python slice read of the exact middle block of a concatenation. -/
theorem pySlice_exact (A C D : List Instr) :
    pySlice (A ++ C ++ D) A.length (A.length + C.length) = C := by
  unfold pySlice
  rw [List.append_assoc, List.drop_left]
  rw [show A.length + C.length - A.length = C.length by omega]
  exact List.take_left C D

/-- Python slice write over the exact middle block of a concatenation. -/
theorem pySetSlice_exact (A C D repl : List Instr) :
    pySetSlice (A ++ C ++ D) A.length (A.length + C.length) repl = A ++ repl ++ D := by
  unfold pySetSlice
  have h1 : List.take A.length (A ++ C ++ D) = A := by
    rw [List.append_assoc]
    exact List.take_left A (C ++ D)
  have h2 : List.drop (max A.length (A.length + C.length)) (A ++ C ++ D) = D := by
    rw [show max A.length (A.length + C.length) = (A ++ C).length by
      simp only [List.length_append]; omega]
    exact List.drop_left (A ++ C) D
  rw [h1, h2]

/-- `pySlice_exact` with the decomposition and arithmetic as equations. -/
theorem pySlice_of_eq {A C D s : List Instr} {a b : Nat} (hs : s = A ++ C ++ D)
    (ha : a = A.length) (hb : b = A.length + C.length) : pySlice s a b = C := by
  subst hs ha hb
  exact pySlice_exact A C D

/-- `pySetSlice_exact` with the decomposition and arithmetic as equations. -/
theorem pySetSlice_of_eq {A C D s : List Instr} (repl : List Instr) {a b : Nat}
    (hs : s = A ++ C ++ D) (ha : a = A.length) (hb : b = A.length + C.length) :
    pySetSlice s a b repl = A ++ repl ++ D := by
  subst hs ha hb
  exact pySetSlice_exact A C D repl

/-- Read at the seam of a decomposition. -/
theorem get?_of_decomp {A B s : List Instr} {v : Instr} {i : Nat}
    (hs : s = A ++ v :: B) (hi : i = A.length) : s.get? i = some v := by
  subst hs hi
  rw [List.get?_eq_getElem?, List.getElem?_append_right (le_refl _)]
  simp

/-- What `__smartdebug__` does to a matched forward if/else occurrence:
the region from the flag load up to (but excluding) the merge-label marker
is replaced by the block the flag selects — the false block keeping its
leading `L1` marker — and the merge-label marker survives. -/
theorem smartdebug_sdShape (fg : List (String × PyVal)) (pre T F post : List Instr)
    (l1 l2 : Nat)
    (hpre : cleanFor l1 l2 pre = true) (hT : cleanFor l1 l2 T = true)
    (hF : cleanFor l1 l2 F = true) (hpost : cleanFor l1 l2 post = true)
    (hl : l1 ≠ l2) :
    smartdebug fg (sdShape pre T F post l1 l2) =
      pre ++ (if truthy ((lookupStr fg "DEBUG").getD (.pybool false)) then T
              else (.LabelMark l1, .none) :: F) ++ ((.LabelMark l2, .none) :: post) := by
  have hpre2 := cleanFor_spec hpre
  have hT2 := cleanFor_spec hT
  have hF2 := cleanFor_spec hF
  have hpost2 := cleanFor_spec hpost
  have hslen : (sdShape pre T F post l1 l2).length
      = pre.length + T.length + F.length + 5 + post.length := by
    simp [sdShape]
    omega
  -- the one flag-load offset
  have huniq : ∀ i, (sdShape pre T F post l1 l2).get? i
      = some (.LOAD_GLOBAL, .name "DEBUG") ↔ i = pre.length := by
    intro i
    have hApre : ((.LOAD_GLOBAL, .name "DEBUG") : Instr) ∉ pre :=
      fun hmem => (hpre2 _ hmem).1 rfl
    have hB : ((.LOAD_GLOBAL, .name "DEBUG") : Instr) ∉
        ((.POP_JUMP_IF_FALSE, .label l1) : Instr) ::
          (T ++ (.JUMP_FORWARD, .label l2) :: (.LabelMark l1, .none) ::
            (F ++ (.LabelMark l2, .none) :: post)) := by
      intro hmem
      simp only [List.mem_cons, List.mem_append] at hmem
      rcases hmem with h | h | h | h | h | h | h
      · simp at h
      · exact (hT2 _ h).1 rfl
      · simp at h
      · simp at h
      · exact (hF2 _ h).1 rfl
      · simp at h
      · exact (hpost2 _ h).1 rfl
    have hshape : sdShape pre T F post l1 l2
        = pre ++ ((.LOAD_GLOBAL, .name "DEBUG") : Instr) ::
            (((.POP_JUMP_IF_FALSE, .label l1) : Instr) ::
              (T ++ (.JUMP_FORWARD, .label l2) :: (.LabelMark l1, .none) ::
                (F ++ (.LabelMark l2, .none) :: post))) := by
      simp [sdShape]
    rw [hshape]
    exact getElem?_unique hApre hB i
  -- offsets of the two label markers
  have hO1 : offset_of (sdShape pre T F post l1 l2) (.label l1)
      = some (pre.length + T.length + 3) := by
    rw [show sdShape pre T F post l1 l2
        = (pre ++ [(.LOAD_GLOBAL, .name "DEBUG"), (.POP_JUMP_IF_FALSE, .label l1)] ++ T ++
            [(.JUMP_FORWARD, .label l2)]) ++
          (((.LabelMark l1, .none) : Instr) :: (F ++ (.LabelMark l2, .none) :: post)) by
      simp [sdShape]]
    rw [offset_of_eq_findIdx]
    have hclean : ∀ ins ∈ pre ++ [((.LOAD_GLOBAL, .name "DEBUG") : Instr),
        (.POP_JUMP_IF_FALSE, .label l1)] ++ T ++ [((.JUMP_FORWARD, .label l2) : Instr)],
        ins.1 ≠ Opcode.LabelMark l1 := by
      intro ins hins
      simp only [List.mem_append, List.mem_cons, List.not_mem_nil, or_false] at hins
      rcases hins with ((h | h | h) | h) | h
      · exact (hpre2 ins h).2.1
      · rw [h]; simp
      · rw [h]; simp
      · exact (hT2 ins h).2.1
      · rw [h]; simp
    rw [findIdx_sdPred_append hclean, findIdx_sdPred_hit]
    simp only [Option.map_some']
    congr 1
    simp only [List.length_append, List.length_cons, List.length_nil]
    omega
  have hO2 : offset_of (sdShape pre T F post l1 l2) (.label l2)
      = some (pre.length + T.length + F.length + 4) := by
    rw [show sdShape pre T F post l1 l2
        = (pre ++ [(.LOAD_GLOBAL, .name "DEBUG"), (.POP_JUMP_IF_FALSE, .label l1)] ++ T ++
            [(.JUMP_FORWARD, .label l2), (.LabelMark l1, .none)] ++ F) ++
          (((.LabelMark l2, .none) : Instr) :: post) by
      simp [sdShape]]
    rw [offset_of_eq_findIdx]
    have hclean : ∀ ins ∈ pre ++ [((.LOAD_GLOBAL, .name "DEBUG") : Instr),
        (.POP_JUMP_IF_FALSE, .label l1)] ++ T ++
        [((.JUMP_FORWARD, .label l2) : Instr), (.LabelMark l1, .none)] ++ F,
        ins.1 ≠ Opcode.LabelMark l2 := by
      intro ins hins
      simp only [List.mem_append, List.mem_cons, List.not_mem_nil, or_false] at hins
      rcases hins with (((h | h | h) | h) | h | h) | h
      · exact (hpre2 ins h).2.2.1
      · rw [h]; simp
      · rw [h]; simp
      · exact (hT2 ins h).2.2.1
      · rw [h]; simp
      · rw [h]; simpa using hl
      · exact (hF2 ins h).2.2.1
    rw [findIdx_sdPred_append hclean, findIdx_sdPred_hit]
    simp only [Option.map_some']
    congr 1
    simp only [List.length_append, List.length_cons, List.length_nil]
    omega
  -- reads at the pivotal offsets
  have hget2 : (sdShape pre T F post l1 l2).get? (pre.length + 1)
      = some (.POP_JUMP_IF_FALSE, .label l1) :=
    get?_of_decomp (A := pre ++ [(.LOAD_GLOBAL, .name "DEBUG")])
      (B := T ++ (.JUMP_FORWARD, .label l2) :: (.LabelMark l1, .none) ::
        (F ++ (.LabelMark l2, .none) :: post))
      (by simp [sdShape]) (by simp)
  have hget4 : (sdShape pre T F post l1 l2).get? (pre.length + T.length + 3)
      = some (.LabelMark l1, .none) :=
    get?_of_decomp
      (A := pre ++ [(.LOAD_GLOBAL, .name "DEBUG"), (.POP_JUMP_IF_FALSE, .label l1)] ++ T ++
        [(.JUMP_FORWARD, .label l2)])
      (B := F ++ (.LabelMark l2, .none) :: post)
      (by simp [sdShape]) (by simp; omega)
  have hget3 : (sdShape pre T F post l1 l2).get? (pre.length + T.length + 2)
      = some (.JUMP_FORWARD, .label l2) :=
    get?_of_decomp
      (A := pre ++ [(.LOAD_GLOBAL, .name "DEBUG"), (.POP_JUMP_IF_FALSE, .label l1)] ++ T)
      (B := (.LabelMark l1, .none) :: (F ++ (.LabelMark l2, .none) :: post))
      (by simp [sdShape]) (by simp; omega)
  -- back_one lands on the JUMP_FORWARD
  have hback : back_one (sdShape pre T F post l1 l2) (pre.length + T.length + 3)
      = pre.length + T.length + 2 := by
    show back_one (sdShape pre T F post l1 l2) ((pre.length + T.length + 2) + 1)
        = pre.length + T.length + 2
    apply back_one_result
    · exact ⟨(.LabelMark l1, .none), hget4, rfl⟩
    · exact Or.inr ⟨(.JUMP_FORWARD, .label l2), hget3, rfl⟩
  -- the classification of the occurrence
  have hnlt : ¬ (pre.length + T.length + 3 < pre.length) := by omega
  have htf : true_false (sdShape pre T F post l1 l2) pre.length
      = some ((pre.length + 2, pre.length + T.length + 2),
          (pre.length + T.length + 3, pre.length + T.length + F.length + 4),
          (pre.length, pre.length + T.length + F.length + 4)) := by
    unfold true_false
    simp only [hget2, hO1, hnlt, hback, hget3, hO2]
    simp
  -- the scan finds exactly the one occurrence
  have hcond : ∀ i, i < (sdShape pre T F post l1 l2).length →
      (findDebugCond (sdShape pre T F post l1 l2) i = true ↔ i = pre.length) := by
    intro i hi
    unfold findDebugCond
    constructor
    · intro hc
      rw [Bool.and_eq_true] at hc
      have h1 := hc.1
      rw [decide_eq_true_iff] at h1
      apply (huniq i).mp
      rw [List.get?_eq_getElem?]
      rcases hgi : (sdShape pre T F post l1 l2)[i]? with _ | v
      · rw [List.getElem?_eq_none_iff] at hgi
        omega
      · have hgd : (sdShape pre T F post l1 l2).getD i default = v := by
          simp [List.getD_eq_getElem?_getD, hgi]
        rw [hgd] at h1
        rw [h1]
    · intro h
      subst h
      rw [Bool.and_eq_true]
      refine ⟨?_, ?_⟩
      · rw [decide_eq_true_iff]
        have h2 := (huniq pre.length).mpr rfl
        rw [List.get?_eq_getElem?] at h2
        simp [List.getD_eq_getElem?_getD, h2]
      · rw [hget2]
        simp
  have hdbg : findDebugs (sdShape pre T F post l1 l2) = [pre.length] := by
    unfold findDebugs
    rw [filter_range_singleton (findDebugCond (sdShape pre T F post l1 l2))
      (sdShape pre T F post l1 l2).length pre.length (by omega) hcond]
    rfl
  -- run the rewrite loop
  have hsl1 : pySlice (sdShape pre T F post l1 l2) (pre.length + 2)
      (pre.length + T.length + 2) = T :=
    pySlice_of_eq (A := pre ++ [(.LOAD_GLOBAL, .name "DEBUG"), (.POP_JUMP_IF_FALSE, .label l1)])
      (C := T)
      (D := [(.JUMP_FORWARD, .label l2), (.LabelMark l1, .none)] ++ F ++
        (.LabelMark l2, .none) :: post)
      (by simp [sdShape]) (by simp) (by simp; omega)
  have hsl2 : pySlice (sdShape pre T F post l1 l2) (pre.length + T.length + 3)
      (pre.length + T.length + F.length + 4) = (.LabelMark l1, .none) :: F :=
    pySlice_of_eq
      (A := pre ++ [(.LOAD_GLOBAL, .name "DEBUG"), (.POP_JUMP_IF_FALSE, .label l1)] ++ T ++
        [(.JUMP_FORWARD, .label l2)])
      (C := ((.LabelMark l1, .none) : Instr) :: F)
      (D := (.LabelMark l2, .none) :: post)
      (by simp [sdShape]) (by simp; omega) (by simp; omega)
  have hset : ∀ chosen, pySetSlice (sdShape pre T F post l1 l2) pre.length
      (pre.length + T.length + F.length + 4) chosen
      = pre ++ chosen ++ ((.LabelMark l2, .none) : Instr) :: post := fun chosen =>
    pySetSlice_of_eq (A := pre)
      (C := [((.LOAD_GLOBAL, .name "DEBUG") : Instr), (.POP_JUMP_IF_FALSE, .label l1)] ++ T ++
        [(.JUMP_FORWARD, .label l2), (.LabelMark l1, .none)] ++ F)
      (D := (.LabelMark l2, .none) :: post)
      chosen (by simp [sdShape]) rfl (by simp; omega)
  unfold smartdebug
  rw [hdbg]
  unfold sdLoop
  simp only [htf]
  by_cases hflag : truthy ((lookupStr fg "DEBUG").getD (.pybool false)) = true
  · rw [if_pos hflag, if_pos hflag, hsl1, hset]
    rfl
  · rw [if_neg hflag, if_neg hflag, hsl2, hset]
    rfl

/-! ## Inert label markers are behaviourally invisible -/

/-- Inserting an unrelated definition marker does not move any resolved
jump target (markers are not counted as real instructions). -/
theorem labelTarget_insert_marker (A B : List Instr) (l m : Nat) (hne : m ≠ l) :
    labelTarget (A ++ (.LabelMark l, .none) :: B) m = labelTarget (A ++ B) m := by
  induction A with
  | nil =>
    simp only [List.nil_append]
    show (if l = m then 0 else labelTarget B m) = labelTarget B m
    rw [if_neg fun h => hne h.symm]
  | cons a A ih =>
    obtain ⟨op, arg⟩ := a
    cases op <;>
      first
      | exact ih
      | (show 1 + labelTarget (A ++ (.LabelMark l, .none) :: B) m
            = 1 + labelTarget (A ++ B) m
         rw [ih])
      | (rename_i k
         show (if k = m then 0 else labelTarget (A ++ (.LabelMark l, .none) :: B) m)
            = if k = m then 0 else labelTarget (A ++ B) m
         rw [ih])

/-- Resolution of one instruction only consults the list through the
targets of its own label argument. -/
theorem resolveInstr_congr (s1 s2 : List Instr) (ins : Instr)
    (h : ∀ m, ins.2 = .label m → labelTarget s1 m = labelTarget s2 m) :
    resolveInstr s1 ins = resolveInstr s2 ins := by
  obtain ⟨op, arg⟩ := ins
  cases op <;> cases arg <;>
    first
    | rfl
    | (simp only [resolveInstr]; rw [h _ rfl])

/-- Dropping a definition marker that nothing references leaves the
resolved program unchanged. -/
theorem resolveJumps_drop_marker (A B : List Instr) (l : Nat)
    (h : ∀ ins ∈ A ++ B, ins.2 ≠ .label l) :
    resolveJumps (A ++ (.LabelMark l, .none) :: B) = resolveJumps (A ++ B) := by
  unfold resolveJumps
  have hpt : ∀ ins ∈ A ++ B, resolveInstr (A ++ (.LabelMark l, .none) :: B) ins
      = resolveInstr (A ++ B) ins := by
    intro ins hins
    apply resolveInstr_congr
    intro m hm
    have hne : m ≠ l := by
      intro hml
      exact h ins hins (by rw [hm, hml])
    exact labelTarget_insert_marker A B l m hne
  calc (A ++ (.LabelMark l, .none) :: B).filterMap
        (resolveInstr (A ++ (.LabelMark l, .none) :: B))
      = A.filterMap (resolveInstr (A ++ (.LabelMark l, .none) :: B)) ++
          ((.LabelMark l, .none) :: B).filterMap
            (resolveInstr (A ++ (.LabelMark l, .none) :: B)) := by
        rw [List.filterMap_append]
    _ = A.filterMap (resolveInstr (A ++ (.LabelMark l, .none) :: B)) ++
          B.filterMap (resolveInstr (A ++ (.LabelMark l, .none) :: B)) := by
        rw [List.filterMap_cons_none rfl]
    _ = A.filterMap (resolveInstr (A ++ B)) ++ B.filterMap (resolveInstr (A ++ B)) := by
        rw [List.filterMap_congr fun a ha => hpt a (List.mem_append_left _ ha),
            List.filterMap_congr fun a ha => hpt a (List.mem_append_right _ ha)]
    _ = (A ++ B).filterMap (resolveInstr (A ++ B)) := by rw [List.filterMap_append]

/-- C1: on every function whose body holds a forward if/else on the flag
symbol `DEBUG` (the matched shape, with the flag and the shape's labels
fresh elsewhere), pruning with the flag truthy is behaviourally identical
— same result and output for all globals, locals and fuel — to the
function containing only the true branch, and with the flag falsy to the
function containing only the false branch; in particular the pruned `g`
of `test_smartdebug` returns 10 on input 0 when `DEBUG` resolved true and
0 when it resolved false. -/
theorem C1_branch_pruning_behavior :
    (∀ (fg : List (String × PyVal)) (pre T F post : List Instr) (l1 l2 : Nat)
        (g loc : List (String × PyVal)) (fuel : Nat),
      cleanFor l1 l2 pre = true → cleanFor l1 l2 T = true → cleanFor l1 l2 F = true →
      cleanFor l1 l2 post = true → l1 ≠ l2 →
      truthy ((lookupStr fg "DEBUG").getD (.pybool false)) = true →
      execFun (smartdebug fg (sdShape pre T F post l1 l2)) g loc fuel
        = execFun (pre ++ T ++ post) g loc fuel) ∧
    (∀ (fg : List (String × PyVal)) (pre T F post : List Instr) (l1 l2 : Nat)
        (g loc : List (String × PyVal)) (fuel : Nat),
      cleanFor l1 l2 pre = true → cleanFor l1 l2 T = true → cleanFor l1 l2 F = true →
      cleanFor l1 l2 post = true → l1 ≠ l2 →
      truthy ((lookupStr fg "DEBUG").getD (.pybool false)) = false →
      execFun (smartdebug fg (sdShape pre T F post l1 l2)) g loc fuel
        = execFun (pre ++ F ++ post) g loc fuel) ∧
    execFun (smartdebug [("DEBUG", .pybool true)] gCode) [] [("x", .int 0)] 20
      = some (.int 10, []) ∧
    execFun (smartdebug [("DEBUG", .pybool false)] gCode) [] [("x", .int 0)] 20
      = some (.int 0, []) := by
  refine ⟨?_, ?_, by decide, by decide⟩
  · intro fg pre T F post l1 l2 g loc fuel h1 h2 h3 h4 h5 h6
    rw [smartdebug_sdShape fg pre T F post l1 l2 h1 h2 h3 h4 h5, if_pos h6]
    unfold execFun
    have hrefs : ∀ ins ∈ (pre ++ T) ++ post, ins.2 ≠ .label l2 := by
      intro ins hins
      simp only [List.mem_append] at hins
      rcases hins with (h | h) | h
      · exact (cleanFor_spec h1 ins h).2.2.2.2
      · exact (cleanFor_spec h2 ins h).2.2.2.2
      · exact (cleanFor_spec h4 ins h).2.2.2.2
    rw [resolveJumps_drop_marker (pre ++ T) post l2 hrefs]
  · intro fg pre T F post l1 l2 g loc fuel h1 h2 h3 h4 h5 h6
    rw [smartdebug_sdShape fg pre T F post l1 l2 h1 h2 h3 h4 h5, if_neg (by simp [h6])]
    unfold execFun
    have hrefs2 : ∀ ins ∈ (pre ++ (.LabelMark l1, .none) :: F) ++ post,
        ins.2 ≠ .label l2 := by
      intro ins hins
      simp only [List.mem_append, List.mem_cons] at hins
      rcases hins with (h | h | h) | h
      · exact (cleanFor_spec h1 ins h).2.2.2.2
      · rw [h]; simp
      · exact (cleanFor_spec h3 ins h).2.2.2.2
      · exact (cleanFor_spec h4 ins h).2.2.2.2
    rw [resolveJumps_drop_marker (pre ++ (.LabelMark l1, .none) :: F) post l2 hrefs2]
    have hassoc : (pre ++ (.LabelMark l1, .none) :: F) ++ post
        = pre ++ (.LabelMark l1, .none) :: (F ++ post) := by
      simp
    rw [hassoc]
    have hrefs1 : ∀ ins ∈ pre ++ (F ++ post), ins.2 ≠ .label l1 := by
      intro ins hins
      simp only [List.mem_append] at hins
      rcases hins with h | h | h
      · exact (cleanFor_spec h1 ins h).2.2.2.1
      · exact (cleanFor_spec h3 ins h).2.2.2.1
      · exact (cleanFor_spec h4 ins h).2.2.2.1
    rw [resolveJumps_drop_marker pre (F ++ post) l1 hrefs1, ← List.append_assoc]

/-- Witness for C1: the general true-flag clause applied to a concrete
matched shape. -/
theorem C1_branch_pruning_behavior_witness :
    execFun (smartdebug [("DEBUG", .pybool true)]
        (sdShape [(.SetLineno, .num 1)]
          [(.LOAD_CONST, .const (.int 1)), (.STORE_FAST, .name "y")]
          []
          [(.LOAD_CONST, .const .pynone), (.RETURN_VALUE, .none)] 0 1)) [] [] 30
      = execFun ([(.SetLineno, .num 1)] ++
          [(.LOAD_CONST, .const (.int 1)), (.STORE_FAST, .name "y")] ++
          [(.LOAD_CONST, .const .pynone), (.RETURN_VALUE, .none)]) [] [] 30 :=
  C1_branch_pruning_behavior.1 [("DEBUG", .pybool true)] _ _ _ _ 0 1 [] [] 30
    (by decide) (by decide) (by decide) (by decide) (by decide) (by decide)

/-- C6 (amended): on a matched forward if/else shape the pruned sequence
replaces the region from the flag load up to — but not including — the
merge-label definition marker with the selected block (the false block
keeping its leading `L1` marker): the flag load and the branch are gone,
yet the merge-label marker remains in place, now unreferenced. -/
theorem C6_pruning_keeps_merge_marker (fg : List (String × PyVal))
    (pre T F post : List Instr) (l1 l2 : Nat)
    (hpre : cleanFor l1 l2 pre = true) (hT : cleanFor l1 l2 T = true)
    (hF : cleanFor l1 l2 F = true) (hpost : cleanFor l1 l2 post = true)
    (hl : l1 ≠ l2) :
    smartdebug fg (sdShape pre T F post l1 l2) =
      pre ++ (if truthy ((lookupStr fg "DEBUG").getD (.pybool false)) then T
              else (.LabelMark l1, .none) :: F) ++ ((.LabelMark l2, .none) :: post) ∧
    ((.LOAD_GLOBAL, .name "DEBUG") : Instr) ∉ smartdebug fg (sdShape pre T F post l1 l2) ∧
    ((.LabelMark l2, .none) : Instr) ∈ smartdebug fg (sdShape pre T F post l1 l2) := by
  have heq := smartdebug_sdShape fg pre T F post l1 l2 hpre hT hF hpost hl
  refine ⟨heq, ?_, ?_⟩
  · rw [heq]
    intro hmem
    simp only [List.mem_append, List.mem_cons] at hmem
    rcases hmem with (h | h) | h | h
    · exact (cleanFor_spec hpre _ h).1 rfl
    · by_cases hflag : truthy ((lookupStr fg "DEBUG").getD (.pybool false)) = true
      · rw [if_pos hflag] at h
        exact (cleanFor_spec hT _ h).1 rfl
      · rw [if_neg hflag] at h
        rcases List.mem_cons.mp h with h | h
        · simp at h
        · exact (cleanFor_spec hF _ h).1 rfl
    · simp at h
    · exact (cleanFor_spec hpost _ h).1 rfl
  · rw [heq]
    simp

/-- Witness for C6's amended claim: the false-flag instance, evaluated. -/
theorem C6_pruning_keeps_merge_marker_witness :
    smartdebug [("DEBUG", .pybool false)]
        (sdShape [(.SetLineno, .num 1)]
          [(.LOAD_CONST, .const (.int 1)), (.STORE_FAST, .name "y")]
          [(.LOAD_CONST, .const (.int 2)), (.STORE_FAST, .name "y")]
          [(.LOAD_CONST, .const .pynone), (.RETURN_VALUE, .none)] 0 1)
      = [(.SetLineno, .num 1)] ++
          ((.LabelMark 0, .none) :: [(.LOAD_CONST, .const (.int 2)), (.STORE_FAST, .name "y")]) ++
          ((.LabelMark 1, .none) :: [(.LOAD_CONST, .const .pynone), (.RETURN_VALUE, .none)]) := by
  have h := (C6_pruning_keeps_merge_marker [("DEBUG", .pybool false)]
    [(.SetLineno, .num 1)]
    [(.LOAD_CONST, .const (.int 1)), (.STORE_FAST, .name "y")]
    [(.LOAD_CONST, .const (.int 2)), (.STORE_FAST, .name "y")]
    [(.LOAD_CONST, .const .pynone), (.RETURN_VALUE, .none)] 0 1
    (by decide) (by decide) (by decide) (by decide) (by decide)).1
  simpa using h

/-! ## Cloning and label freshness -/

/-- A label with no definition entry is not in the remap dict. -/
theorem cloneTgtGo_none {defs : List Nat} {l : Nat} (h : l ∉ defs) :
    ∀ ctr, cloneTgtGo defs ctr l = Option.none := by
  induction defs with
  | nil => intro ctr; rfl
  | cons d rest ih =>
    intro ctr
    simp only [List.mem_cons, not_or] at h
    simp only [cloneTgtGo, ih h.2]
    rw [if_neg fun hh => h.1 hh.symm]

/-- A defined label maps to a fresh identity `ctr + k` where `k` indexes
one of its definition entries. -/
theorem cloneTgtGo_mem {defs : List Nat} {l : Nat} (h : l ∈ defs) :
    ∀ ctr, ∃ k, k < defs.length ∧ cloneTgtGo defs ctr l = some (ctr + k) ∧
      defs.get? k = some l := by
  induction defs with
  | nil => simp at h
  | cons d rest ih =>
    intro ctr
    by_cases hr : l ∈ rest
    · obtain ⟨k, hk, hgo, hget⟩ := ih hr (ctr + 1)
      refine ⟨k + 1, by simp; omega, ?_, by simpa using hget⟩
      simp only [cloneTgtGo, hgo]
      congr 1
      omega
    · have hd : d = l := by
        rcases List.mem_cons.mp h with h2 | h2
        · exact h2.symm
        · exact absurd h2 hr
      refine ⟨0, by simp, ?_, by simp [hd]⟩
      simp [cloneTgtGo, cloneTgtGo_none hr, hd]

/-- Label definitions of a relabelled list. -/
theorem labelDefs_relabel (f : Nat → Nat) (s : List Instr) :
    labelDefs (relabel f s) = (labelDefs s).map f := by
  induction s with
  | nil => rfl
  | cons a rest ih =>
    obtain ⟨op, arg⟩ := a
    cases op <;> simp [relabel, labelDefs, List.filterMap_cons] at ih ⊢ <;> exact ih

/-- Label references of a relabelled list. -/
theorem refLabels_relabel (f : Nat → Nat) (s : List Instr) :
    refLabels (relabel f s) = (refLabels s).map f := by
  induction s with
  | nil => rfl
  | cons a rest ih =>
    obtain ⟨op, arg⟩ := a
    cases arg <;> simp [relabel, refLabels, List.filterMap_cons] at ih ⊢ <;> exact ih

/-- `__clone` is one consistent relabelling: the same total remap is
applied to every definition entry and every reference. -/
theorem cloneB_eq_relabel (B : List Instr) (ctr : Nat) :
    cloneB B ctr = relabel (fun l => (cloneTgt B ctr l).getD l) B := by
  unfold cloneB relabel
  apply List.map_congr_left
  intro ins hmem
  obtain ⟨op, arg⟩ := ins
  refine Prod.ext ?_ ?_
  · cases op <;> try rfl
    rename_i l
    rcases htgt : cloneTgt B ctr l with _ | v <;> simp [htgt]
  · cases arg <;> try rfl
    rename_i l
    rcases htgt : cloneTgt B ctr l with _ | v <;> simp [htgt]

/-- C8 counterexample: a block whose jump references a label with no
definition entry inside the block keeps the original label identity — the
remap only covers labels *defined* in the block — refuting "every label
appearing in B, both definition entries and references, is replaced by a
fresh identity". -/
theorem C8_counterexample_outward_reference :
    cloneB [(.JUMP_FORWARD, .label 5)] 100 = [(.JUMP_FORWARD, .label 5)] ∧
    (5 : Nat) ∈ labelsOf [(.JUMP_FORWARD, .label 5)] ∧
    (5 : Nat) ∈ labelsOf (cloneB [(.JUMP_FORWARD, .label 5)] 100) := by
  decide

/-- C8 (amended): `__clone` freshens exactly the labels that have a
definition entry in the block, rewriting definitions and references
through one consistent remap and leaving references to externally-defined
labels unchanged.  For a block whose references all resolve to its own
(pairwise distinct) definitions and whose labels all predate the fresh
supply `ctr`: the clone has the same length, every label in it is fresh
(`≥ ctr`, hence disjoint from the original's labels), the clone is a
single consistent relabelling of the block, and every jump reference in
the clone resolves to exactly one definition entry in the clone. -/
theorem C8_clone_fresh_labels (B : List Instr) (ctr : Nat)
    (hres : ∀ l ∈ refLabels B, l ∈ labelDefs B)
    (hnodup : (labelDefs B).Nodup)
    (hfresh : ∀ l ∈ labelsOf B, l < ctr) :
    (cloneB B ctr).length = B.length ∧
    (∀ l ∈ labelsOf (cloneB B ctr), ctr ≤ l) ∧
    (∀ l ∈ labelsOf (cloneB B ctr), l ∉ labelsOf B) ∧
    cloneB B ctr = relabel (fun l => (cloneTgt B ctr l).getD l) B ∧
    (∀ r ∈ refLabels (cloneB B ctr), (labelDefs (cloneB B ctr)).count r = 1) := by
  have hrel := cloneB_eq_relabel B ctr
  have hdefs : labelDefs (cloneB B ctr)
      = (labelDefs B).map fun l => (cloneTgt B ctr l).getD l := by
    rw [hrel, labelDefs_relabel]
  have hrefs : refLabels (cloneB B ctr)
      = (refLabels B).map fun l => (cloneTgt B ctr l).getD l := by
    rw [hrel, refLabels_relabel]
  -- the remap sends every defined label to a fresh identity
  have hmapped : ∀ l ∈ labelDefs B, ∃ k, k < (labelDefs B).length ∧
      (cloneTgt B ctr l).getD l = ctr + k ∧ (labelDefs B).get? k = some l := by
    intro l hl
    obtain ⟨k, hk, hgo, hget⟩ := cloneTgtGo_mem hl ctr
    exact ⟨k, hk, by simp [cloneTgt, hgo], hget⟩
  have hfreshMap : ∀ l ∈ labelDefs B, ctr ≤ (cloneTgt B ctr l).getD l := by
    intro l hl
    obtain ⟨k, _, he, _⟩ := hmapped l hl
    omega
  have hinj : ∀ l ∈ labelDefs B, ∀ m ∈ labelDefs B,
      (cloneTgt B ctr l).getD l = (cloneTgt B ctr m).getD m → l = m := by
    intro l hl m hm heq
    obtain ⟨k, hk, he, hget⟩ := hmapped l hl
    obtain ⟨k2, hk2, he2, hget2⟩ := hmapped m hm
    have hkk : k = k2 := by omega
    rw [hkk, hget2] at hget
    exact (Option.some_injective _ hget).symm
  refine ⟨by rw [hrel]; simp [relabel], ?_, ?_, hrel, ?_⟩
  · intro l hl
    unfold labelsOf at hl
    rw [List.mem_append, hdefs, hrefs] at hl
    rcases hl with hl | hl
    · obtain ⟨m, hm, hme⟩ := List.mem_map.mp hl
      rw [← hme]
      exact hfreshMap m hm
    · obtain ⟨m, hm, hme⟩ := List.mem_map.mp hl
      rw [← hme]
      exact hfreshMap m (hres m hm)
  · intro l hl hl2
    have h1 : ctr ≤ l := by
      unfold labelsOf at hl
      rw [List.mem_append, hdefs, hrefs] at hl
      rcases hl with hl | hl
      · obtain ⟨m, hm, hme⟩ := List.mem_map.mp hl
        rw [← hme]; exact hfreshMap m hm
      · obtain ⟨m, hm, hme⟩ := List.mem_map.mp hl
        rw [← hme]; exact hfreshMap m (hres m hm)
    exact absurd (hfresh l hl2) (by omega)
  · intro r hr
    rw [hrefs] at hr
    obtain ⟨m, hm, hme⟩ := List.mem_map.mp hr
    have hmd : m ∈ labelDefs B := hres m hm
    have hnd : (labelDefs (cloneB B ctr)).Nodup := by
      rw [hdefs]
      exact hnodup.map_on hinj
    have hmem : r ∈ labelDefs (cloneB B ctr) := by
      rw [hdefs]
      exact List.mem_map.mpr ⟨m, hmd, hme⟩
    exact List.count_eq_one_of_mem hnd hmem

/-- Witness for C8's amended claim: a two-instruction block with one
internal label. -/
theorem C8_clone_fresh_labels_witness :
    (cloneB [(.LabelMark 0, .none), (.JUMP_FORWARD, .label 0)] 7).length = 2 ∧
    (∀ l ∈ labelsOf (cloneB [(.LabelMark 0, .none), (.JUMP_FORWARD, .label 0)] 7), 7 ≤ l) ∧
    (∀ l ∈ labelsOf (cloneB [(.LabelMark 0, .none), (.JUMP_FORWARD, .label 0)] 7),
      l ∉ labelsOf [(.LabelMark 0, .none), (.JUMP_FORWARD, .label 0)]) ∧
    cloneB [(.LabelMark 0, .none), (.JUMP_FORWARD, .label 0)] 7
      = relabel (fun l => (cloneTgt [(.LabelMark 0, .none), (.JUMP_FORWARD, .label 0)] 7 l).getD l)
          [(.LabelMark 0, .none), (.JUMP_FORWARD, .label 0)] ∧
    (∀ r ∈ refLabels (cloneB [(.LabelMark 0, .none), (.JUMP_FORWARD, .label 0)] 7),
      (labelDefs (cloneB [(.LabelMark 0, .none), (.JUMP_FORWARD, .label 0)] 7)).count r = 1) :=
  C8_clone_fresh_labels [(.LabelMark 0, .none), (.JUMP_FORWARD, .label 0)] 7
    (by decide) (by decide) (by decide)

/-! ## `__unprint__`: the claim fails on branchy print operands ... -/

/-- C3 counterexample: for `f(c): print (1 if c else 2)` the linear level
scan counts both branch arms, so `killback` also deletes the merge-label
marker; the stripped code keeps a `JUMP_FORWARD` to the deleted label,
and at `c = true` the original returns `None` (printing "1\n") while the
stripped function cannot return at all. -/
theorem C3_counterexample_branchy_print :
    execFun f3Code [] [("c", .pybool true)] 30 = some (.pynone, ["1", "\n"]) ∧
    unprint f3Code =
      [(.SetLineno, .num 2),
       (.LOAD_FAST, .name "c"),
       (.POP_JUMP_IF_FALSE, .label 0),
       (.LOAD_CONST, .const (.int 1)),
       (.JUMP_FORWARD, .label 1),
       (.LabelMark 0, .none),
       (.LOAD_CONST, .const .pynone),
       (.RETURN_VALUE, .none)] ∧
    execFun (unprint f3Code) [] [("c", .pybool true)] 30 = Option.none := by
  decide

/-! ### Stack levels of compiled straight-line code -/

/-- Net effect distributes over concatenation. -/
theorem esum_append (A B : List Instr) : esum (A ++ B) = esum A + esum B := by
  simp [esum]

/-- The level list is as long as the code. -/
theorem length_levelsFrom (b : Int) (s : List Instr) :
    (levelsFrom b s).length = s.length := by
  induction s generalizing b with
  | nil => rfl
  | cons a rest ih => simp [levelsFrom, ih]

/-- The linear level scan splits over concatenation. -/
theorem levelsFrom_append (b : Int) (A B : List Instr) :
    levelsFrom b (A ++ B) = levelsFrom b A ++ levelsFrom (b + esum A) B := by
  induction A generalizing b with
  | nil => simp [levelsFrom, esum]
  | cons a rest ih =>
    simp only [List.cons_append, levelsFrom, List.append_eq, List.cons.injEq, true_and]
    rw [ih (b + eff a),
      show b + esum (a :: rest) = b + eff a + esum rest by
        simp only [esum, List.map_cons, List.sum_cons]; ring]

/-- Levels of a balanced prefix followed by anything. -/
theorem levelsOf_decomp (done B : List Instr) (h : esum done = 0) :
    levelsOf (done ++ B) = levelsFrom 0 done ++ levelsFrom 0 B := by
  unfold levelsOf
  rw [levelsFrom_append, h]
  norm_num

/-- Reading levels past a balanced prefix. -/
theorem getD_levels_suffix {done B : List Instr} (h : esum done = 0) (j : Nat) :
    (levelsOf (done ++ B)).getD (done.length + j) 0 = (levelsFrom 0 B).getD j 0 := by
  rw [levelsOf_decomp done B h, List.getD_eq_getElem?_getD,
      List.getElem?_append_right (by rw [length_levelsFrom]; omega)]
  rw [show done.length + j - (levelsFrom 0 done).length = j by
    rw [length_levelsFrom]; omega]
  rw [← List.getD_eq_getElem?_getD]

/-- Reading levels inside a prefix. -/
theorem getD_levelsFrom_prefix {A : List Instr} (B : List Instr) (b : Int) {j : Nat}
    (hj : j < A.length) :
    (levelsFrom b (A ++ B)).getD j 0 = (levelsFrom b A).getD j 0 := by
  rw [levelsFrom_append, List.getD_eq_getElem?_getD,
      List.getElem?_append_left (by rw [length_levelsFrom]; omega),
      ← List.getD_eq_getElem?_getD]

/-- The last level of a fragment is its net effect. -/
theorem levelsFrom_last (b : Int) (A : List Instr) (h : A ≠ []) :
    (levelsFrom b A).getD (A.length - 1) 0 = b + esum A := by
  induction A generalizing b with
  | nil => exact absurd rfl h
  | cons a rest ih =>
    cases rest with
    | nil => simp [levelsFrom, esum]
    | cons c cs =>
      have h2 := ih (b := b + eff a) (by simp)
      rw [show levelsFrom b (a :: c :: cs)
          = (b + eff a) :: levelsFrom (b + eff a) (c :: cs) from rfl]
      rw [show (a :: c :: cs).length - 1 = ((c :: cs).length - 1) + 1 by simp]
      rw [List.getD_cons_succ, h2]
      simp only [esum, List.map_cons, List.sum_cons]
      ring

/-- An expression's code has net effect `+1`. -/
theorem esum_compileE (e : PExpr) : esum (compileE e) = 1 := by
  induction e with
  | econst v => simp [compileE, esum, eff, getse]
  | evar s => simp [compileE, esum, eff, getse]
  | eadd a b iha ihb =>
    rw [compileE, esum_append, esum_append, iha, ihb]
    simp [esum, eff, getse]

/-- Every running level inside an expression's code stays strictly above
the entry level. -/
theorem levelsFrom_compileE_ge (e : PExpr) (b : Int) :
    ∀ x ∈ levelsFrom b (compileE e), b + 1 ≤ x := by
  induction e generalizing b with
  | econst v =>
    intro x hx
    simp [compileE, levelsFrom, eff, getse] at hx
    omega
  | evar s =>
    intro x hx
    simp [compileE, levelsFrom, eff, getse] at hx
    omega
  | eadd e1 e2 ih1 ih2 =>
    intro x hx
    rw [compileE, levelsFrom_append, levelsFrom_append, esum_append,
      esum_compileE e1, esum_compileE e2] at hx
    simp only [List.mem_append] at hx
    rcases hx with (hx | hx) | hx
    · exact ih1 b x hx
    · have := ih2 (b + 1) x hx
      omega
    · simp [levelsFrom, eff, getse] at hx
      omega

/-! ### `killback` on a well-nested print operand -/

/-- `pyLevelAt` at a nonnegative index. -/
theorem pyLevelAt_ofNat (L : List Int) (n : Nat) : pyLevelAt L (n : Int) = L.getD n 0 := by
  unfold pyLevelAt
  rw [if_pos (by exact_mod_cast Nat.zero_le n)]
  simp

/-- Membership in `intRange`. -/
theorem mem_intRange {k : Int} {lo m : Nat} :
    k ∈ intRange lo m ↔ (lo : Int) ≤ k ∧ k < (lo : Int) + m := by
  unfold intRange
  simp only [List.mem_map, List.mem_range'_1]
  constructor
  · rintro ⟨i, ⟨h1, h2⟩, rfl⟩
    omega
  · rintro ⟨h1, h2⟩
    exact ⟨k.toNat, ⟨by omega, by omega⟩, by omega⟩

/-- `intRange` has no duplicates. -/
theorem nodup_intRange {lo m : Nat} : (intRange lo m).Nodup := by
  unfold intRange
  refine List.Nodup.map ?_ (List.nodup_range' lo m)
  intro a b h
  exact_mod_cast h

/-- The backward walk of `killback` from the top of a span whose levels
stay positive collects exactly the span. -/
theorem killbackWalk_range (L : List Int) (lo : Nat) (hlo : 1 ≤ lo)
    (hstop : L.getD (lo - 1) 0 ≤ 0) :
    ∀ (m : Nat) (ks : List Int) (fuel : Nat),
      (∀ i : Nat, lo ≤ i → i < lo + m → 1 ≤ L.getD i 0) →
      (∀ k ∈ ks, ¬((lo : Int) ≤ k ∧ k < (lo : Int) + m)) →
      m + 1 ≤ fuel →
      killbackWalk L 0 ks ((lo : Int) + (m : Int) - 1) fuel
        = (intRange lo m ++ ks, (lo : Int) - 1) := by
  intro m
  induction m with
  | zero =>
    intro ks fuel hlev hks hfuel
    obtain ⟨f, rfl⟩ : ∃ f, fuel = f + 1 := ⟨fuel - 1, by omega⟩
    rw [killbackWalk]
    rw [if_neg ?hcond]
    case hcond =>
      rintro ⟨hge, hgt⟩
      rw [show (lo : Int) + ((0 : Nat) : Int) - 1 = ((lo - 1 : Nat) : Int) by push_cast; omega,
          pyLevelAt_ofNat] at hgt
      omega
    simp [intRange]
  | succ m ih =>
    intro ks fuel hlev hks hfuel
    obtain ⟨f, rfl⟩ : ∃ f, fuel = f + 1 := ⟨fuel - 1, by omega⟩
    rw [killbackWalk]
    rw [if_pos ?hcond]
    case hcond =>
      constructor
      · omega
      · have he : (lo : Int) + (m + 1 : Nat) - 1 = ((lo + m : Nat) : Int) := by
          push_cast; omega
        rw [he, pyLevelAt_ofNat]
        have := hlev (lo + m) (by omega) (by omega)
        omega
    have hadd : killAdd ks ((lo : Int) + (m + 1 : Nat) - 1) =
        ((lo : Int) + (m + 1 : Nat) - 1) :: ks := by
      unfold killAdd
      rw [if_neg]
      intro hmem
      exact hks _ hmem ⟨by omega, by push_cast; omega⟩
    rw [hadd]
    have hstep : (lo : Int) + (m + 1 : Nat) - 1 - 1 = (lo : Int) + (m : Int) - 1 := by
      push_cast; omega
    rw [hstep]
    have hks2 : ∀ k ∈ ((lo : Int) + (m + 1 : Nat) - 1) :: ks,
        ¬((lo : Int) ≤ k ∧ k < (lo : Int) + m) := by
      intro k hk
      rcases List.mem_cons.mp hk with h | h
      · subst h; push_cast; omega
      · intro hc
        exact hks k h ⟨hc.1, by push_cast; omega⟩
    rw [ih (((lo : Int) + ((m + 1 : Nat) : Int) - 1) :: ks) f
      (fun i h1 h2 => hlev i h1 (by omega)) hks2 (by omega)]
    refine Prod.ext ?_ rfl
    show intRange lo m ++ ((lo : Int) + (m + 1 : Nat) - 1) :: ks = intRange lo (m + 1) ++ ks
    have he2 : (lo : Int) + (m + 1 : Nat) - 1 = ((lo + m : Nat) : Int) := by push_cast; omega
    rw [he2]
    have : intRange lo (m + 1) = intRange lo m ++ [((lo + m : Nat) : Int)] := by
      unfold intRange
      rw [List.range'_1_concat]
      simp
    rw [this]
    simp

/-- `killback` at the print position of a well-nested operand: the kill
set gains exactly the operand's span plus the print itself, and the
cursor stops on the balanced position before the span. -/
theorem killback_range (L : List Int) (ks : List Int) (lo m : Nat)
    (hlo : 1 ≤ lo) (hstop : L.getD (lo - 1) 0 ≤ 0)
    (hp : L.getD (lo + m) 0 = 0)
    (hlev : ∀ i : Nat, lo ≤ i → i < lo + m → 1 ≤ L.getD i 0)
    (hks : ∀ k ∈ ks, ¬((lo : Int) ≤ k ∧ k ≤ (lo : Int) + m)) :
    killback L ks ((lo + m : Nat) : Int) = (intRange lo (m + 1) ++ ks, (lo : Int) - 1) := by
  unfold killback
  have hadd : killAdd ks ((lo + m : Nat) : Int) = ((lo + m : Nat) : Int) :: ks := by
    unfold killAdd
    rw [if_neg]
    intro hmem
    exact hks _ hmem ⟨by push_cast; omega, by push_cast; omega⟩
  rw [hadd, pyLevelAt_ofNat, hp]
  have hpc : ((lo + m : Nat) : Int) - 1 = (lo : Int) + (m : Int) - 1 := by push_cast; omega
  rw [hpc]
  have hks2 : ∀ k ∈ ((lo + m : Nat) : Int) :: ks, ¬((lo : Int) ≤ k ∧ k < (lo : Int) + m) := by
    intro k hk
    rcases List.mem_cons.mp hk with h | h
    · subst h; push_cast; omega
    · intro hc
      exact hks k h ⟨hc.1, by omega⟩
  rw [killbackWalk_range L lo hlo hstop m _ _
    (fun i h1 h2 => hlev i h1 h2) hks2 (by push_cast; omega)]
  refine Prod.ext ?_ rfl
  show intRange lo m ++ ((lo + m : Nat) : Int) :: ks = intRange lo (m + 1) ++ ks
  have : intRange lo (m + 1) = intRange lo m ++ [((lo + m : Nat) : Int)] := by
    unfold intRange
    rw [List.range'_1_concat]
    simp
  rw [this]
  simp

/-! ### The `__unprint__` scan on straight-line code -/

/-- A scan step over a non-print instruction changes nothing. -/
theorem unprintScan_step (s : List Instr) (lv : List Int) (n pos : Nat) (K : List Int)
    (hlt : pos < s.length)
    (hop : isPrintOp ((s.getD pos default).1) = false) :
    unprintScan s lv (n + 1) pos K = unprintScan s lv n (pos + 1) K := by
  rw [unprintScan, if_pos hlt]
  show unprintScan s lv n (pos + 1) _ = unprintScan s lv n (pos + 1) K
  congr 1
  by_cases hmem : (pos : Int) ∈ K
  · rw [if_pos hmem]
  · rw [if_neg hmem]
    generalize hg : (s.getD pos default).1 = op
    rw [hg] at hop
    cases op <;> first | rfl | simp [isPrintOp] at hop

/-- The scan splits into consecutive runs of steps. -/
theorem unprintScan_split (s : List Instr) (lv : List Int) :
    ∀ (f1 f2 pos : Nat) (K : List Int), pos + f1 ≤ s.length →
      unprintScan s lv (f1 + f2) pos K
        = unprintScan s lv f2 (pos + f1) (unprintScan s lv f1 pos K) := by
  intro f1
  induction f1 with
  | zero => intro f2 pos K h; simp [unprintScan]
  | succ f1 ih =>
    intro f2 pos K h
    rw [show f1 + 1 + f2 = (f1 + f2) + 1 by omega]
    rw [unprintScan, if_pos (by omega)]
    conv_rhs => rw [unprintScan, if_pos (by omega)]
    rw [ih f2 (pos + 1) _ (by omega)]
    rw [show pos + 1 + f1 = pos + (f1 + 1) by omega]

/-- A run of the scan over print-free positions changes nothing. -/
theorem scan_noprint (s : List Instr) (lv : List Int) :
    ∀ (n pos : Nat) (K : List Int), pos + n ≤ s.length →
      (∀ j, j < n → isPrintOp ((s.getD (pos + j) default).1) = false) →
      unprintScan s lv n pos K = K := by
  intro n
  induction n with
  | zero => intro pos K _ _; rfl
  | succ n ih =>
    intro pos K hle hop
    rw [unprintScan_step s lv n pos K (by omega)
      (by have := hop 0 (by omega); simpa using this)]
    exact ih (pos + 1) K (by omega) (fun j hj => by
      have := hop (j + 1) (by omega)
      rwa [show pos + (j + 1) = pos + 1 + j by omega] at this)

/-- Reading the middle block of a three-part list. -/
theorem getD_append_mid (A C B : List Instr) (j : Nat) (hj : j < C.length) :
    (A ++ (C ++ B)).getD (A.length + j) default = C.getD j default := by
  rw [List.getD_eq_getElem?_getD,
    List.getElem?_append_right (by omega : A.length ≤ A.length + j),
    show A.length + j - A.length = j by omega,
    List.getElem?_append_left hj, ← List.getD_eq_getElem?_getD]

/-- A defaulted in-range read is a member. -/
theorem getD_mem {C : List Instr} {j : Nat} (hj : j < C.length) :
    C.getD j default ∈ C := by
  rw [List.getD_eq_getElem?_getD, List.getElem?_eq_getElem hj]
  exact List.getElem_mem hj

/-- Expression code is print- and jump-free. -/
theorem compileE_ops (e : PExpr) :
    ∀ ins ∈ compileE e, isPrintOp ins.1 = false ∧ isJumpOp ins.1 = false := by
  induction e with
  | econst v => intro ins h; simp [compileE] at h; subst h; exact ⟨rfl, rfl⟩
  | evar s => intro ins h; simp [compileE] at h; subst h; exact ⟨rfl, rfl⟩
  | eadd a b iha ihb =>
    intro ins h
    rw [compileE] at h
    simp only [List.mem_append, List.mem_singleton] at h
    rcases h with (h | h) | h
    · exact iha ins h
    · exact ihb ins h
    · subst h; exact ⟨rfl, rfl⟩

/-- Assignment code is print-free. -/
theorem compileS_assign_noprint (x : String) (e : PExpr) :
    ∀ ins ∈ compileS (.sassign x e), isPrintOp ins.1 = false := by
  intro ins h
  rw [compileS] at h
  simp only [List.mem_append, List.mem_singleton] at h
  rcases h with h | h
  · exact (compileE_ops e ins h).1
  · subst h; rfl

/-- Statement code is jump-free. -/
theorem compileS_nojump (st : PStmt) :
    ∀ ins ∈ compileS st, isJumpOp ins.1 = false := by
  intro ins h
  cases st with
  | sassign x e =>
    rw [compileS] at h
    simp only [List.mem_append, List.mem_singleton] at h
    rcases h with h | h
    · exact (compileE_ops e ins h).2
    · subst h; rfl
  | sprint e nl =>
    rw [compileS] at h
    simp only [List.mem_append, List.mem_singleton] at h
    rcases h with (h | h) | h
    · exact (compileE_ops e ins h).2
    · subst h; rfl
    · cases nl <;> simp at h
      subst h; rfl

/-- A scan step over `PRINT_ITEM` (not yet killed) runs `killback`. -/
theorem unprintScan_step_print_item (s : List Instr) (lv : List Int) (n pos : Nat)
    (K : List Int) (hlt : pos < s.length) (hni : (pos : Int) ∉ K)
    (hget : (s.getD pos default).1 = .PRINT_ITEM) :
    unprintScan s lv (n + 1) pos K
      = unprintScan s lv n (pos + 1) (killback lv K pos).1 := by
  rw [unprintScan, if_pos hlt]
  show unprintScan s lv n (pos + 1) _ = _
  congr 1
  rw [if_neg hni, hget]

/-- A one-fuel scan at `PRINT_ITEM`. -/
theorem unprintScan_one_print_item (s : List Instr) (lv : List Int) (pos : Nat)
    (K : List Int) (hlt : pos < s.length) (hni : (pos : Int) ∉ K)
    (hget : (s.getD pos default).1 = .PRINT_ITEM) :
    unprintScan s lv 1 pos K = (killback lv K pos).1 := by
  show unprintScan s lv (0 + 1) pos K = _
  rw [unprintScan_step_print_item s lv 0 pos K hlt hni hget]
  rw [unprintScan]

/-- A one-fuel scan at `PRINT_NEWLINE`. -/
theorem unprintScan_one_print_newline (s : List Instr) (lv : List Int) (pos : Nat)
    (K : List Int) (hlt : pos < s.length) (hni : (pos : Int) ∉ K)
    (hget : (s.getD pos default).1 = .PRINT_NEWLINE) :
    unprintScan s lv 1 pos K = killAdd K pos := by
  show unprintScan s lv (0 + 1) pos K = _
  rw [unprintScan, if_pos hlt]
  show unprintScan s lv 0 (pos + 1) _ = _
  rw [unprintScan]
  rw [if_neg hni, hget]

/-- One statement's code is stack-balanced. -/
theorem esum_compileS (st : PStmt) : esum (compileS st) = 0 := by
  cases st with
  | sassign x e =>
    rw [compileS, esum_append, esum_compileE]
    simp [esum, eff, getse]
  | sprint e nl =>
    rw [compileS, esum_append, esum_append, esum_compileE]
    cases nl <;> simp [esum, eff, getse]

/-- A statement list's code is stack-balanced. -/
theorem esum_flatten (stmts : List PStmt) : esum ((stmts.map compileS).flatten) = 0 := by
  induction stmts with
  | nil => simp [esum]
  | cons st rest ih =>
    rw [List.map_cons, List.flatten_cons, esum_append, esum_compileS, ih]
    norm_num

/-- No print span lies before the region start. -/
theorem spanB_lb {pos : Nat} {stmts : List PStmt} {k : Int} (h : k < (pos : Int)) :
    spanB pos stmts k = false := by
  induction stmts generalizing pos with
  | nil => rfl
  | cons st rest ih =>
    rw [spanB]
    have h1 : decide ((pos : Int) ≤ k) = false := decide_eq_false (by omega)
    have h2 : spanB (pos + (compileS st).length) rest k = false :=
      ih (by push_cast; omega)
    simp [h1, h2]

/-- No print span lies past the region end. -/
theorem spanB_ub {pos : Nat} {stmts : List PStmt} {k : Int}
    (h : ((pos + ((stmts.map compileS).flatten).length : Nat) : Int) ≤ k) :
    spanB pos stmts k = false := by
  induction stmts generalizing pos with
  | nil => rfl
  | cons st rest ih =>
    simp only [List.map_cons, List.flatten_cons, List.length_append] at h
    push_cast at h
    rw [spanB]
    have h1 : decide (k < (pos : Int) + ((compileS st).length : Int)) = false :=
      decide_eq_false (by omega)
    have h2 : spanB (pos + (compileS st).length) rest k = false :=
      ih (by push_cast; omega)
    simp [h1, h2]

/-- Positions inside an expression's code are print-free. -/
theorem noprint_compileE_pos (A : List Instr) (e : PExpr) (Z : List Instr) :
    ∀ j, j < (compileE e).length →
      isPrintOp (((A ++ (compileE e ++ Z)).getD (A.length + j) default).1) = false := by
  intro j hj
  rw [getD_append_mid A (compileE e) Z j hj]
  exact (compileE_ops e _ (getD_mem hj)).1

/-- Reading the `PRINT_ITEM` right after an operand expression. -/
theorem getD_print_item (A Y : List Instr) (e : PExpr) :
    (A ++ (compileE e ++ ((.PRINT_ITEM, .none) :: Y))).getD
      (A.length + (compileE e).length) default = (.PRINT_ITEM, .none) := by
  rw [← List.append_assoc]
  rw [List.getD_eq_getElem?_getD,
    List.getElem?_append_right (by simp [List.length_append])]
  simp [List.length_append]

/-- Reading the `PRINT_NEWLINE` after the `PRINT_ITEM`. -/
theorem getD_print_newline (A Y : List Instr) (e : PExpr) :
    (A ++ (compileE e ++ ((.PRINT_ITEM, .none) :: ((.PRINT_NEWLINE, .none) :: Y)))).getD
      (A.length + (compileE e).length + 1) default = (.PRINT_NEWLINE, .none) := by
  rw [← List.append_assoc]
  rw [List.getD_eq_getElem?_getD,
    List.getElem?_append_right (by simp [List.length_append])]
  simp [List.length_append]

/-- `killback` fired at the `PRINT_ITEM` of a print statement whose code
follows a balanced nonempty prefix kills exactly the operand's span plus
the print, and nothing of a kill set lying inside the prefix. -/
theorem killback_print_item (A Y : List Instr) (e : PExpr) (K : List Int)
    (hA : A ≠ []) (he : esum A = 0)
    (hK : ∀ k ∈ K, 0 ≤ k ∧ k < (A.length : Int)) :
    killback (levelsOf (A ++ (compileE e ++ ((.PRINT_ITEM, .none) :: Y)))) K
        ((A.length + (compileE e).length : Nat) : Int)
      = (intRange A.length ((compileE e).length + 1) ++ K, (A.length : Int) - 1) := by
  have hAl : 0 < A.length := List.length_pos.mpr hA
  have hstop : (levelsOf (A ++ (compileE e ++ ((.PRINT_ITEM, .none) :: Y)))).getD
      (A.length - 1) 0 ≤ 0 := by
    rw [levelsOf, getD_levelsFrom_prefix _ 0 (by omega), levelsFrom_last 0 A hA, he]
    norm_num
  have hp : (levelsOf (A ++ (compileE e ++ ((.PRINT_ITEM, .none) :: Y)))).getD
      (A.length + (compileE e).length) 0 = 0 := by
    rw [getD_levels_suffix he, levelsFrom_append]
    rw [List.getD_eq_getElem?_getD,
      List.getElem?_append_right (le_of_eq (length_levelsFrom 0 (compileE e)))]
    rw [length_levelsFrom, Nat.sub_self, esum_compileE]
    simp [levelsFrom, eff, getse]
  have hlev : ∀ i : Nat, A.length ≤ i → i < A.length + (compileE e).length →
      1 ≤ (levelsOf (A ++ (compileE e ++ ((.PRINT_ITEM, .none) :: Y)))).getD i 0 := by
    intro i h1 h2
    obtain ⟨j, rfl⟩ : ∃ j, i = A.length + j := ⟨i - A.length, by omega⟩
    have hj : j < (compileE e).length := by omega
    rw [getD_levels_suffix he, levelsFrom_append]
    have hjl : j < (levelsFrom 0 (compileE e)).length := by
      rw [length_levelsFrom]; exact hj
    rw [List.getD_eq_getElem?_getD, List.getElem?_append_left hjl,
      List.getElem?_eq_getElem hjl]
    have := levelsFrom_compileE_ge e 0 _ (List.getElem_mem hjl)
    simpa using this
  exact killback_range _ K A.length (compileE e).length (by omega) hstop hp hlev
    (fun k hk hc => by have := hK k hk; omega)

/-- Scanning one compiled statement: a print statement contributes exactly
its span to the kill set; an assignment contributes nothing. -/
theorem scan_stmt (st : PStmt) (A X : List Instr) (K : List Int)
    (hA : A ≠ []) (he : esum A = 0)
    (hK : ∀ k ∈ K, 0 ≤ k ∧ k < (A.length : Int)) :
    ∃ K1,
      unprintScan (A ++ (compileS st ++ X)) (levelsOf (A ++ (compileS st ++ X)))
          (compileS st).length A.length K = K1
      ∧ (∀ k : Int, k ∈ K1 ↔
          ((isPrintStmt st = true ∧ (A.length : Int) ≤ k
              ∧ k < ((A.length + (compileS st).length : Nat) : Int)) ∨ k ∈ K))
      ∧ (K.Nodup → K1.Nodup) := by
  cases st with
  | sassign x e =>
    refine ⟨K, ?_, ?_, fun h => h⟩
    · apply scan_noprint
      · simp only [List.length_append]
        omega
      · intro j hj
        rw [getD_append_mid A (compileS (.sassign x e)) X j hj]
        exact compileS_assign_noprint x e _ (getD_mem hj)
    · intro k
      simp [isPrintStmt]
  | sprint e nl =>
    cases nl with
    | false =>
      have hcs : compileS (.sprint e false) = compileE e ++ [(.PRINT_ITEM, .none)] := by
        simp [compileS]
      rw [hcs]
      simp only [List.append_assoc, List.singleton_append, List.cons_append,
        List.nil_append, List.length_append, List.length_cons, List.length_nil,
        isPrintStmt, true_and]
      have hni : ((A.length + (compileE e).length : Nat) : Int) ∉ K := fun h => by
        have := hK _ h; push_cast at this; omega
      refine ⟨intRange A.length ((compileE e).length + 1) ++ K, ?_, ?_, ?_⟩
      · rw [unprintScan_split _ _ (compileE e).length 1 A.length K
          (by simp only [List.length_append, List.length_cons]; omega)]
        rw [scan_noprint _ _ (compileE e).length A.length K
          (by simp only [List.length_append, List.length_cons]; omega)
          (noprint_compileE_pos A e _)]
        rw [unprintScan_one_print_item _ _ _ K
          (by simp only [List.length_append, List.length_cons]; omega)
          hni (congrArg Prod.fst (getD_print_item A X e))]
        rw [killback_print_item A X e K hA he hK]
      · intro k
        simp only [List.mem_append, mem_intRange]
        constructor
        · rintro (⟨h1, h2⟩ | h)
          · exact Or.inl ⟨h1, by push_cast at h2 ⊢; omega⟩
          · exact Or.inr h
        · rintro (⟨h1, h2⟩ | h)
          · exact Or.inl ⟨h1, by push_cast at h2 ⊢; omega⟩
          · exact Or.inr h
      · intro hnd
        rw [List.nodup_append]
        exact ⟨nodup_intRange, hnd, fun a ha hb => by
          rw [mem_intRange] at ha
          have := hK a hb
          omega⟩
    | true =>
      have hcs : compileS (.sprint e true)
          = compileE e ++ [(.PRINT_ITEM, .none), (.PRINT_NEWLINE, .none)] := by
        simp [compileS]
      rw [hcs]
      simp only [List.append_assoc, List.singleton_append, List.cons_append,
        List.nil_append, List.length_append, List.length_cons, List.length_nil,
        isPrintStmt, true_and]
      have hni : ((A.length + (compileE e).length : Nat) : Int) ∉ K := fun h => by
        have := hK _ h; push_cast at this; omega
      have hni2 : ((A.length + (compileE e).length + 1 : Nat) : Int)
          ∉ intRange A.length ((compileE e).length + 1) ++ K := fun h => by
        rcases List.mem_append.mp h with h | h
        · rw [mem_intRange] at h; push_cast at h; omega
        · have := hK _ h; push_cast at this; omega
      refine ⟨((A.length + (compileE e).length + 1 : Nat) : Int)
          :: (intRange A.length ((compileE e).length + 1) ++ K), ?_, ?_, ?_⟩
      · rw [show (compileE e).length + (1 + 1) = (compileE e).length + (1 + 1) from rfl]
        rw [unprintScan_split _ _ (compileE e).length (1 + 1) A.length K
          (by simp only [List.length_append, List.length_cons]; omega)]
        rw [scan_noprint _ _ (compileE e).length A.length K
          (by simp only [List.length_append, List.length_cons]; omega)
          (noprint_compileE_pos A e _)]
        rw [unprintScan_step_print_item _ _ 1 _ K
          (by simp only [List.length_append, List.length_cons]; omega)
          hni (congrArg Prod.fst (getD_print_item A ((.PRINT_NEWLINE, .none) :: X) e))]
        rw [killback_print_item A ((.PRINT_NEWLINE, .none) :: X) e K hA he hK]
        rw [unprintScan_one_print_newline _ _ _ _
          (by simp only [List.length_append, List.length_cons]; omega)
          hni2 (congrArg Prod.fst (getD_print_newline A X e))]
        rw [killAdd, if_neg hni2]
      · intro k
        simp only [List.mem_cons, List.mem_append, mem_intRange]
        constructor
        · rintro (rfl | ⟨h1, h2⟩ | h)
          · exact Or.inl ⟨by push_cast; omega, by push_cast; omega⟩
          · exact Or.inl ⟨h1, by push_cast at h2 ⊢; omega⟩
          · exact Or.inr h
        · rintro (⟨h1, h2⟩ | h)
          · by_cases htop : k = ((A.length + (compileE e).length + 1 : Nat) : Int)
            · exact Or.inl htop
            · refine Or.inr (Or.inl ⟨h1, ?_⟩)
              push_cast at h2 htop ⊢
              omega
          · exact Or.inr (Or.inr h)
      · intro hnd
        rw [List.nodup_cons]
        refine ⟨hni2, ?_⟩
        rw [List.nodup_append]
        exact ⟨nodup_intRange, hnd, fun a ha hb => by
          rw [mem_intRange] at ha
          have := hK a hb
          omega⟩

/-- Scanning a compiled statement list: the kill set becomes exactly the
union of the incoming set and the print statements' spans. -/
theorem scan_stmts :
    ∀ (stmts : List PStmt) (A B : List Instr) (K : List Int),
      A ≠ [] → esum A = 0 →
      (∀ k ∈ K, 0 ≤ k ∧ k < (A.length : Int)) → K.Nodup →
      ∃ K2,
        unprintScan (A ++ ((stmts.map compileS).flatten ++ B))
            (levelsOf (A ++ ((stmts.map compileS).flatten ++ B)))
            ((stmts.map compileS).flatten).length A.length K = K2
        ∧ K2.Nodup
        ∧ (∀ k : Int, k ∈ K2 ↔ (k ∈ K ∨ spanB A.length stmts k = true))
        ∧ (∀ k ∈ K2, 0 ≤ k ∧ k
            < ((A.length + ((stmts.map compileS).flatten).length : Nat) : Int)) := by
  intro stmts
  induction stmts with
  | nil =>
    intro A B K hA he hK hnd
    refine ⟨K, rfl, hnd, ?_, ?_⟩
    · intro k
      simp [spanB]
    · intro k hk
      simp only [List.map_nil, List.flatten_nil, List.length_nil, Nat.add_zero]
      exact hK k hk
  | cons st rest ih =>
    intro A B K hA he hK hnd
    simp only [List.map_cons, List.flatten_cons, List.append_assoc, List.length_append]
    obtain ⟨K1, hrun1, hmem1, hnd1⟩ :=
      scan_stmt st A ((rest.map compileS).flatten ++ B) K hA he hK
    have hK1 : ∀ k ∈ K1, 0 ≤ k ∧ k < ((A.length + (compileS st).length : Nat) : Int) := by
      intro k hk
      rcases (hmem1 k).mp hk with ⟨_, h1, h2⟩ | h
      · exact ⟨by omega, h2⟩
      · have := hK k h
        exact ⟨this.1, by push_cast at this ⊢; omega⟩
    have hA' : A ++ compileS st ≠ [] := fun h => hA (List.append_eq_nil.mp h).1
    have he' : esum (A ++ compileS st) = 0 := by
      rw [esum_append, he, esum_compileS]
      norm_num
    have hK1' : ∀ k ∈ K1, 0 ≤ k ∧ k < (((A ++ compileS st).length : Nat) : Int) := by
      intro k hk
      rw [List.length_append]
      exact hK1 k hk
    obtain ⟨K2, hrun2, hnd2, hmem2, hbnd2⟩ :=
      ih (A ++ compileS st) B K1 hA' he' hK1' (hnd1 hnd)
    rw [List.append_assoc, List.length_append] at hrun2
    rw [List.length_append] at hmem2 hbnd2
    refine ⟨K2, ?_, hnd2, ?_, ?_⟩
    · rw [unprintScan_split _ _ (compileS st).length ((rest.map compileS).flatten).length
        A.length K (by simp only [List.length_append]; omega)]
      rw [hrun1, hrun2]
    · intro k
      rw [hmem2 k, hmem1 k, spanB]
      simp only [Bool.or_eq_true, Bool.and_eq_true, decide_eq_true_eq]
      constructor
      · rintro ((⟨hp1, hp2, hp3⟩ | h) | hrest)
        · exact Or.inr (Or.inl ⟨⟨hp1, hp2⟩, by push_cast at hp3 ⊢; omega⟩)
        · exact Or.inl h
        · exact Or.inr (Or.inr hrest)
      · rintro (h | (⟨⟨hp1, hp2⟩, hp3⟩ | hrest))
        · exact Or.inl (Or.inr h)
        · exact Or.inl (Or.inl ⟨hp1, hp2, by push_cast at hp3 ⊢; omega⟩)
        · exact Or.inr hrest
    · intro k hk
      have := hbnd2 k hk
      exact ⟨this.1, by push_cast at this ⊢; omega⟩

/-! ### Deleting the kill set -/

/-- Keeping with no kill in range changes nothing. -/
theorem keepIdxFrom_of_notmem {K : List Int} : ∀ (s : List Instr) (off : Nat),
    (∀ j, j < s.length → ((off + j : Nat) : Int) ∉ K) → keepIdxFrom off K s = s := by
  intro s
  induction s with
  | nil => intro off _; rfl
  | cons x xs ih =>
    intro off h
    have h0 : ((off : Nat) : Int) ∉ K := by simpa using h 0 (by simp)
    rw [keepIdxFrom, if_neg h0, ih (off + 1) (fun j hj => by
      have := h (j + 1) (by simp; omega)
      rwa [show off + (j + 1) = off + 1 + j by omega] at this)]
    simp

/-- Keeping with every position killed deletes everything. -/
theorem keepIdxFrom_of_allmem {K : List Int} : ∀ (s : List Instr) (off : Nat),
    (∀ j, j < s.length → ((off + j : Nat) : Int) ∈ K) → keepIdxFrom off K s = [] := by
  intro s
  induction s with
  | nil => intro off _; rfl
  | cons x xs ih =>
    intro off h
    have h0 : ((off : Nat) : Int) ∈ K := by simpa using h 0 (by simp)
    rw [keepIdxFrom, if_pos h0, ih (off + 1) (fun j hj => by
      have := h (j + 1) (by simp; omega)
      rwa [show off + (j + 1) = off + 1 + j by omega] at this)]
    rfl

/-- Keeping splits over concatenation. -/
theorem keepIdxFrom_append {K : List Int} : ∀ (A C : List Instr) (off : Nat),
    keepIdxFrom off K (A ++ C)
      = keepIdxFrom off K A ++ keepIdxFrom (off + A.length) K C := by
  intro A
  induction A with
  | nil => intro C off; simp [keepIdxFrom]
  | cons x xs ih =>
    intro C off
    rw [List.cons_append, keepIdxFrom, keepIdxFrom, ih C (off + 1)]
    rw [show off + 1 + xs.length = off + (x :: xs).length by simp; omega]
    simp [List.append_assoc]

/-- Keeping only depends on kill-set membership. -/
theorem keepIdxFrom_congr {K1 K2 : List Int} (h : ∀ k, k ∈ K1 ↔ k ∈ K2) :
    ∀ (s : List Instr) (off : Nat), keepIdxFrom off K1 s = keepIdxFrom off K2 s := by
  intro s
  induction s with
  | nil => intro off; rfl
  | cons x xs ih =>
    intro off
    rw [keepIdxFrom, keepIdxFrom, ih (off + 1)]
    congr 1
    by_cases hm : ((off : Nat) : Int) ∈ K1
    · rw [if_pos hm, if_pos ((h _).mp hm)]
    · rw [if_neg hm, if_neg (fun hc => hm ((h _).mpr hc))]

/-- Erasing the largest index first commutes with keeping the rest. -/
theorem keep_erase : ∀ (s : List Instr) (off j : Nat) (D : List Int),
    j < s.length → (∀ k ∈ D, k < ((off + j : Nat) : Int)) →
    keepIdxFrom off D (s.eraseIdx j)
      = keepIdxFrom off (((off + j : Nat) : Int) :: D) s := by
  intro s
  induction s with
  | nil => intro off j D hj _; simp at hj
  | cons x xs ih =>
    intro off j D hj hD
    cases j with
    | zero =>
      rw [show (x :: xs).eraseIdx 0 = xs from rfl]
      rw [keepIdxFrom]
      rw [if_pos (by simp)]
      rw [List.nil_append]
      rw [keepIdxFrom_of_notmem xs off (fun j hj hc => by
        have := hD _ hc; push_cast at this; omega)]
      rw [keepIdxFrom_of_notmem xs (off + 1) (fun j hj hc => by
        rcases List.mem_cons.mp hc with h | h
        · push_cast at h; omega
        · have := hD _ h; push_cast at this; omega)]
    | succ j =>
      rw [show (x :: xs).eraseIdx (j + 1) = x :: xs.eraseIdx j from rfl]
      rw [keepIdxFrom, keepIdxFrom]
      congr 1
      · have hiff : (((off : Nat) : Int) ∈ (((off + (j + 1) : Nat) : Int) :: D))
            ↔ (((off : Nat) : Int) ∈ D) := by
          simp only [List.mem_cons]
          constructor
          · rintro (h | h)
            · exfalso; push_cast at h; omega
            · exact h
          · exact Or.inr
        by_cases hm : ((off : Nat) : Int) ∈ D
        · rw [if_pos hm, if_pos (hiff.mpr hm)]
        · rw [if_neg hm, if_neg (fun hc => hm (hiff.mp hc))]
      · have hrec := ih (off + 1) j D (by simpa using hj) (fun k hk => by
          have := hD k hk; push_cast at this ⊢; omega)
        have hidx : off + 1 + j = off + (j + 1) := by omega
        rw [hidx] at hrec
        exact hrec

/-- Folding `pyDelAt` over a descending nodup in-range index list keeps
exactly the unkilled positions. -/
theorem foldl_del_sorted : ∀ (D : List Int) (s : List Instr),
    D.Sorted (fun a b : Int => a ≥ b) → D.Nodup →
    (∀ k ∈ D, 0 ≤ k ∧ k < (s.length : Int)) →
    List.foldl pyDelAt s D = keepIdxFrom 0 D s := by
  intro D
  induction D with
  | nil =>
    intro s _ _ _
    rw [List.foldl_nil, keepIdxFrom_of_notmem s 0 (fun j hj hc => by simp at hc)]
  | cons d D ih =>
    intro s hsort hnd hrange
    rw [List.foldl_cons]
    have hd := hrange d (by simp)
    have hdl : d.toNat < s.length := by omega
    have hdel : pyDelAt s d = s.eraseIdx d.toNat := by
      rw [pyDelAt, if_pos (by omega), if_pos hdl]
    rw [hdel]
    rw [List.sorted_cons] at hsort
    rw [List.nodup_cons] at hnd
    have hlt : ∀ k ∈ D, k < d := by
      intro k hk
      have h1 := hsort.1 k hk
      have h2 : k ≠ d := fun h => hnd.1 (h ▸ hk)
      omega
    have htn : ((d.toNat : Nat) : Int) = d := Int.toNat_of_nonneg hd.1
    rw [ih (s.eraseIdx d.toNat) hsort.2 hnd.2 (fun k hk => by
      have h3 := hrange k (by simp [hk])
      have h4 := hlt k hk
      rw [List.length_eraseIdx]
      simp only [hdl, if_true]
      exact ⟨h3.1, by omega⟩)]
    have hke := keep_erase s 0 d.toNat D hdl (fun k hk => by
      have := hlt k hk
      push_cast
      omega)
    rw [hke]
    rw [show ((0 + d.toNat : Nat) : Int) = d by rw [Nat.zero_add]; exact htn]

/-- `delKills` on a nodup in-range kill set keeps exactly the unkilled
positions. -/
theorem delKills_eq_keep (s : List Instr) (K : List Int)
    (hnd : K.Nodup) (hrange : ∀ k ∈ K, 0 ≤ k ∧ k < (s.length : Int)) :
    delKills s K = keepIdxFrom 0 K s := by
  rw [delKills]
  have hsort : (sortDesc K).Sorted (fun a b : Int => a ≥ b) := by
    unfold sortDesc
    exact List.sorted_insertionSort _ _
  have hperm : List.Perm (sortDesc K) K := by
    unfold sortDesc
    exact List.perm_insertionSort _ _
  have hnd' : (sortDesc K).Nodup := hperm.nodup_iff.mpr hnd
  rw [foldl_del_sorted (sortDesc K) s hsort hnd'
    (fun k hk => hrange k (hperm.mem_iff.mp hk))]
  exact keepIdxFrom_congr (fun k => hperm.mem_iff) s 0

/-- Reading the right block of a two-part list. -/
theorem getD_append_right2 (A C : List Instr) (j : Nat) (_hj : j < C.length) :
    (A ++ C).getD (A.length + j) default = C.getD j default := by
  rw [List.getD_eq_getElem?_getD, List.getElem?_append_right (by omega),
    show A.length + j - A.length = j by omega, ← List.getD_eq_getElem?_getD]

/-- The return code is print-free. -/
theorem noprint_retcode (e : PExpr) :
    ∀ ins ∈ (compileE e ++ [(.RETURN_VALUE, .none)]), isPrintOp ins.1 = false := by
  intro ins h
  rcases List.mem_append.mp h with h | h
  · exact (compileE_ops e ins h).1
  · simp at h; subst h; rfl

/-- Keeping the unkilled positions of a compiled statement list, when the
kill set is exactly the print spans, yields the print-free statements'
code. -/
theorem keep_flatten : ∀ (stmts : List PStmt) (pos : Nat) (K : List Int),
    (∀ j : Nat, pos ≤ j → (((j : Nat) : Int) ∈ K ↔ spanB pos stmts ((j : Nat) : Int) = true)) →
    keepIdxFrom pos K ((stmts.map compileS).flatten)
      = (((stmts.filter fun st => !(isPrintStmt st))).map compileS).flatten := by
  intro stmts
  induction stmts with
  | nil => intro pos K _; rfl
  | cons st rest ih =>
    intro pos K h
    simp only [List.map_cons, List.flatten_cons]
    rw [keepIdxFrom_append]
    have hrest : ∀ j : Nat, pos + (compileS st).length ≤ j →
        (((j : Nat) : Int) ∈ K ↔ spanB (pos + (compileS st).length) rest ((j : Nat) : Int) = true) := by
      intro j hj
      rw [h j (by omega), spanB]
      have d2 : decide (((j : Nat) : Int) < (pos : Int) + ((compileS st).length : Int)) = false :=
        decide_eq_false (by omega)
      rw [d2]
      simp
    cases hps : isPrintStmt st with
    | true =>
      rw [keepIdxFrom_of_allmem (compileS st) pos (fun j hj => by
        refine (h (pos + j) (by omega)).mpr ?_
        rw [spanB]
        have d1 : decide ((pos : Int) ≤ ((pos + j : Nat) : Int)) = true := by
          rw [decide_eq_true_eq]; push_cast; omega
        have d2 : decide (((pos + j : Nat) : Int) < (pos : Int) + ((compileS st).length : Int)) = true := by
          rw [decide_eq_true_eq]; push_cast; omega
        rw [hps, d1, d2]
        simp)]
      rw [List.nil_append, ih (pos + (compileS st).length) K hrest]
      simp [List.filter_cons, hps]
    | false =>
      rw [keepIdxFrom_of_notmem (compileS st) pos (fun j hj hc => by
        have hsp := (h (pos + j) (by omega)).mp hc
        rw [spanB, hps] at hsp
        rw [spanB_lb (by push_cast; omega)] at hsp
        simp at hsp)]
      rw [ih (pos + (compileS st).length) K hrest]
      simp [List.filter_cons, hps]

/-- Structural effect of `__unprint__` on straight-line code: it deletes
exactly the compiled print statements. -/
theorem unprint_compileF (body : List PStmt) (ret : PExpr) :
    unprint (compileF body ret)
      = compileF (body.filter fun st => !(isPrintStmt st)) ret := by
  have hshape : compileF body ret
      = [((.SetLineno : Opcode), (.num 1 : Arg))]
          ++ ((body.map compileS).flatten
            ++ (compileE ret ++ [(.RETURN_VALUE, .none)])) := by
    rw [compileF, List.append_assoc]
    rfl
  have hlen : ([((.SetLineno : Opcode), (.num 1 : Arg))]
      ++ ((body.map compileS).flatten
        ++ (compileE ret ++ [((.RETURN_VALUE : Opcode), (.none : Arg))]))).length
      = 1 + (((body.map compileS).flatten).length + ((compileE ret).length + 1)) := by
    simp only [List.length_append, List.length_cons, List.length_nil,
      List.length_singleton]
  obtain ⟨K2, hrun, hnd2, hmem2, hbnd2⟩ :=
    scan_stmts body [((.SetLineno : Opcode), (.num 1 : Arg))]
      (compileE ret ++ [(.RETURN_VALUE, .none)]) []
      (by simp) (by simp [esum, eff, getse]) (by simp) (by simp)
  have h01 : ([((.SetLineno : Opcode), (.num 1 : Arg))] : List Instr).length = 0 + 1 := rfl
  rw [h01] at hrun
  simp only [List.length_singleton] at hmem2 hbnd2
  rw [hshape, unprint, hlen]
  rw [unprintScan_split _ _ 1
    (((body.map compileS).flatten).length + ((compileE ret).length + 1)) 0 [] (by simp)]
  rw [scan_noprint _ _ 1 0 [] (by simp) (fun j hj => by
    have : j = 0 := by omega
    subst this
    rfl)]
  rw [unprintScan_split _ _ ((body.map compileS).flatten).length
    ((compileE ret).length + 1) (0 + 1) []
    (by simp only [List.length_append, List.length_cons, List.length_nil,
      List.length_singleton]; omega)]
  rw [hrun]
  rw [scan_noprint _ _ ((compileE ret).length + 1)
    (0 + 1 + ((body.map compileS).flatten).length) K2
    (by simp only [List.length_append, List.length_cons, List.length_nil,
      List.length_singleton]; omega)
    (fun j hj => by
      rw [show [((.SetLineno : Opcode), (.num 1 : Arg))]
          ++ ((body.map compileS).flatten
            ++ (compileE ret ++ [(.RETURN_VALUE, .none)]))
          = ([((.SetLineno : Opcode), (.num 1 : Arg))] ++ (body.map compileS).flatten)
            ++ (compileE ret ++ [(.RETURN_VALUE, .none)])
          from (List.append_assoc _ _ _).symm]
      rw [show 0 + 1 + ((body.map compileS).flatten).length + j
          = ([((.SetLineno : Opcode), (.num 1 : Arg))]
              ++ (body.map compileS).flatten).length + j
          from by simp only [List.length_append, List.length_singleton]]
      rw [getD_append_right2 _ _ j (by
        simp only [List.length_append, List.length_singleton]
        omega)]
      exact noprint_retcode ret _ (getD_mem (by
        simp only [List.length_append, List.length_singleton]
        omega)))]
  rw [delKills_eq_keep _ K2 hnd2 (fun k hk => ⟨(hbnd2 k hk).1, by
    have := (hbnd2 k hk).2
    simp only [List.length_append, List.length_cons, List.length_nil,
      List.length_singleton] at this ⊢
    push_cast at this ⊢
    omega⟩)]
  rw [keepIdxFrom_append, keepIdxFrom_append]
  simp only [List.length_singleton, Nat.zero_add]
  rw [show keepIdxFrom 0 K2 [((.SetLineno : Opcode), (.num 1 : Arg))]
      = [((.SetLineno : Opcode), (.num 1 : Arg))] from
    keepIdxFrom_of_notmem _ 0 (fun j hj hc => by
      have : j = 0 := by omega
      subst this
      rcases (hmem2 _).mp hc with h | h
      · simp at h
      · rw [spanB_lb (by simp)] at h
        simp at h)]
  rw [keep_flatten body 1 K2 (fun j hj => by
    rw [hmem2]
    simp)]
  rw [keepIdxFrom_of_notmem (compileE ret ++ [((.RETURN_VALUE : Opcode), (.none : Arg))])
    (1 + ((body.map compileS).flatten).length) (fun j hj hc => by
      rcases (hmem2 _).mp hc with h | h
      · simp at h
      · rw [spanB_ub (by push_cast; omega)] at h
        simp at h)]
  rw [compileF]
  simp [List.append_assoc]

/-! ### Running straight-line compiled code -/

/-- Resolution of a non-jump instruction ignores the context list. -/
theorem resolveInstr_env (s : List Instr) (ins : Instr) (h : isJumpOp ins.1 = false) :
    resolveInstr s ins = resolveInstr [] ins := by
  obtain ⟨op, a⟩ := ins
  cases op <;> cases a <;> first | rfl | simp [isJumpOp] at h

/-- Resolving a jump-free list is a pointwise `filterMap`. -/
theorem resolve_nojump (s : List Instr) (h : ∀ ins ∈ s, isJumpOp ins.1 = false) :
    resolveJumps s = s.filterMap rOf := by
  rw [resolveJumps]
  exact List.filterMap_congr (fun ins hins => resolveInstr_env s ins (h ins hins))

/-- The resolved program of an expression's code. -/
theorem rE_eq (e : PExpr) : (compileE e).filterMap rOf = rE e := by
  induction e with
  | econst v => rfl
  | evar s => rfl
  | eadd a b iha ihb =>
    rw [compileE, rE]
    rw [List.filterMap_append, List.filterMap_append, iha, ihb]
    rfl

/-- The resolved program of a statement's code. -/
theorem rS_eq (st : PStmt) : (compileS st).filterMap rOf = rS st := by
  cases st with
  | sassign x e =>
    rw [compileS, rS, List.filterMap_append, rE_eq]
    rfl
  | sprint e nl =>
    cases nl <;>
      simp only [compileS, rS, List.filterMap_append, rE_eq, if_true, if_false] <;>
      rfl

/-- The resolved program of a statement list's code. -/
theorem rB_eq (stmts : List PStmt) :
    (((stmts.map compileS).flatten).filterMap rOf) = rB stmts := by
  induction stmts with
  | nil => rfl
  | cons st rest ih =>
    rw [List.map_cons, List.flatten_cons, List.filterMap_append, rS_eq, ih]
    simp [rB]

/-- Statement-list code is jump-free. -/
theorem compileF_nojump (body : List PStmt) (ret : PExpr) :
    ∀ ins ∈ compileF body ret, isJumpOp ins.1 = false := by
  intro ins h
  rw [compileF] at h
  rcases List.mem_cons.mp h with rfl | h
  · rfl
  · rcases List.mem_append.mp h with h | h
    · rcases List.mem_append.mp h with h | h
      · rcases List.mem_flatten.mp h with ⟨l, hl, hins⟩
        rcases List.mem_map.mp hl with ⟨st, _, rfl⟩
        exact compileS_nojump st ins hins
      · exact (compileE_ops ret ins h).2
    · simp at h; subst h; rfl

/-- The resolved program of a compiled function. -/
theorem resolve_compileF (body : List PStmt) (ret : PExpr) :
    resolveJumps (compileF body ret) = rB body ++ (rE ret ++ [.ret]) := by
  rw [resolve_nojump _ (compileF_nojump body ret)]
  rw [compileF]
  rw [List.filterMap_cons_none rfl]
  rw [List.filterMap_append, List.filterMap_append, rB_eq, rE_eq]
  rw [List.append_assoc]
  rfl

/-- Unfolding one continuing machine step. -/
theorem execGo_cont {prog : List RInstr} {g : List (String × PyVal)} {pc : Nat}
    {st : VMState} {pc2 : Nat} {st2 : VMState}
    (h : stepI prog g pc st = .cont pc2 st2) (fuel : Nat) :
    execGo prog g (fuel + 1) pc st = execGo prog g fuel pc2 st2 := by
  rw [execGo, h]

/-- Unfolding one returning machine step. -/
theorem execGo_ret {prog : List RInstr} {g : List (String × PyVal)} {pc : Nat}
    {st : VMState} {v : PyVal} {out : List String}
    (h : stepI prog g pc st = .ret v out) (fuel : Nat) :
    execGo prog g (fuel + 1) pc st = some (v, out) := by
  rw [execGo, h]

/-- Running an expression's resolved code pushes its value. -/
theorem exec_E (g : List (String × PyVal)) :
    ∀ (e : PExpr) (prog : List RInstr) (pc : Nat) (st : VMState) (v : PyVal),
      (∀ j, j < (rE e).length → prog.get? (pc + j) = (rE e).get? j) →
      evalE st.locals e = some v →
      ∀ fuel, execGo prog g ((rE e).length + fuel) pc st
        = execGo prog g fuel (pc + (rE e).length) { st with stack := v :: st.stack } := by
  intro e
  induction e with
  | econst c =>
    intro prog pc st v hfrag hev fuel
    have hget : prog.get? pc = some (.loadConst c) := by
      have := hfrag 0 (by simp [rE])
      simpa [rE] using this
    rw [evalE] at hev
    obtain rfl := Option.some.inj hev
    rw [List.get?_eq_getElem?] at hget
    have hstep : stepI prog g pc st = .cont (pc + 1) { st with stack := c :: st.stack } := by
      simp [stepI, hget]
    rw [show (rE (PExpr.econst c)).length + fuel = fuel + 1 from by
      rw [show (rE (PExpr.econst c)).length = 1 from rfl]; omega]
    rw [execGo_cont hstep fuel]
    rfl
  | evar name =>
    intro prog pc st v hfrag hev fuel
    have hget : prog.get? pc = some (.loadFast name) := by
      have := hfrag 0 (by simp [rE])
      simpa [rE] using this
    rw [evalE] at hev
    rw [List.get?_eq_getElem?] at hget
    have hstep : stepI prog g pc st = .cont (pc + 1) { st with stack := v :: st.stack } := by
      simp [stepI, hget, hev]
    rw [show (rE (PExpr.evar name)).length + fuel = fuel + 1 from by
      rw [show (rE (PExpr.evar name)).length = 1 from rfl]; omega]
    rw [execGo_cont hstep fuel]
    rfl
  | eadd a b iha ihb =>
    intro prog pc st v hfrag hev fuel
    rw [evalE] at hev
    rcases hA : evalE st.locals a with _ | x
    · rw [hA] at hev; simp at hev
    rcases hB : evalE st.locals b with _ | y
    · rw [hA, hB] at hev; simp at hev
    rw [hA, hB] at hev
    have hadd : pyAdd x y = some v := hev
    have hfragA : ∀ j, j < (rE a).length → prog.get? (pc + j) = (rE a).get? j := by
      intro j hj
      rw [hfrag j (by simp [rE]; omega)]
      rw [show rE (PExpr.eadd a b) = (rE a ++ rE b) ++ [.binAdd] from rfl]
      rw [List.get?_append (by simp only [List.length_append]; omega), List.get?_append hj]
    have hfragB : ∀ j, j < (rE b).length →
        prog.get? (pc + (rE a).length + j) = (rE b).get? j := by
      intro j hj
      have := hfrag ((rE a).length + j) (by simp [rE]; omega)
      rw [show pc + ((rE a).length + j) = pc + (rE a).length + j from by omega] at this
      rw [this]
      rw [show rE (PExpr.eadd a b) = (rE a ++ rE b) ++ [.binAdd] from rfl]
      rw [List.get?_append (by simp only [List.length_append]; omega)]
      rw [List.get?_append_right (by omega),
        show (rE a).length + j - (rE a).length = j from by omega]
    have hgetAdd : prog.get? (pc + (rE a).length + (rE b).length) = some .binAdd := by
      have := hfrag ((rE a).length + (rE b).length) (by simp [rE])
      rw [show pc + ((rE a).length + (rE b).length)
          = pc + (rE a).length + (rE b).length from by omega] at this
      rw [this]
      rw [show rE (PExpr.eadd a b) = (rE a ++ rE b) ++ [.binAdd] from rfl]
      rw [List.get?_append_right (by simp only [List.length_append]; omega)]
      simp
    rw [show (rE (PExpr.eadd a b)).length + fuel
        = (rE a).length + ((rE b).length + (fuel + 1)) from by simp [rE]; omega]
    rw [iha prog pc st x hfragA hA ((rE b).length + (fuel + 1))]
    rw [ihb prog (pc + (rE a).length) { st with stack := x :: st.stack } y hfragB hB (fuel + 1)]
    rw [List.get?_eq_getElem?] at hgetAdd
    have hstep : stepI prog g (pc + (rE a).length + (rE b).length)
        { st with stack := y :: x :: st.stack }
        = .cont (pc + (rE a).length + (rE b).length + 1)
            { st with stack := v :: st.stack } := by
      simp [stepI, hgetAdd, hadd]
    rw [execGo_cont hstep fuel]
    rw [show pc + (rE (PExpr.eadd a b)).length
        = pc + (rE a).length + (rE b).length + 1 from by simp [rE]; omega]

/-- Running one statement's resolved code updates locals and output as the
reference semantics says. -/
theorem exec_S (g : List (String × PyVal)) (stmt : PStmt) (prog : List RInstr)
    (pc : Nat) (st : VMState) (loc2 : List (String × PyVal)) (outS : List String)
    (hfrag : ∀ j, j < (rS stmt).length → prog.get? (pc + j) = (rS stmt).get? j)
    (hev : evalS st.locals stmt = some (loc2, outS)) :
    ∀ fuel, execGo prog g ((rS stmt).length + fuel) pc st
      = execGo prog g fuel (pc + (rS stmt).length)
          ⟨st.stack, loc2, st.output ++ outS⟩ := by
  cases stmt with
  | sassign x e =>
    intro fuel
    rw [evalS] at hev
    rcases hE : evalE st.locals e with _ | v
    · rw [hE] at hev; simp at hev
    rw [hE] at hev
    simp only [Option.map_some'] at hev
    have hp := Option.some.inj hev
    have hl : setLocal st.locals x v = loc2 := congrArg Prod.fst hp
    have ho : ([] : List String) = outS := congrArg Prod.snd hp
    subst hl
    subst ho
    have hfragE : ∀ j, j < (rE e).length → prog.get? (pc + j) = (rE e).get? j := by
      intro j hj
      rw [hfrag j (by simp [rS]; omega)]
      rw [show rS (PStmt.sassign x e) = rE e ++ [.storeFast x] from rfl]
      rw [List.get?_append hj]
    have hgetS : prog.get? (pc + (rE e).length) = some (.storeFast x) := by
      have := hfrag (rE e).length (by simp [rS])
      rw [show rS (PStmt.sassign x e) = rE e ++ [.storeFast x] from rfl] at this
      rw [List.get?_append_right (le_refl _), Nat.sub_self] at this
      simpa using this
    rw [List.get?_eq_getElem?] at hgetS
    rw [show (rS (PStmt.sassign x e)).length + fuel = (rE e).length + (fuel + 1) from by
      rw [show (rS (PStmt.sassign x e)).length = (rE e).length + 1 from by simp [rS]]
      omega]
    rw [exec_E g e prog pc st v hfragE hE (fuel + 1)]
    have hstep : stepI prog g (pc + (rE e).length) { st with stack := v :: st.stack }
        = .cont (pc + (rE e).length + 1) ⟨st.stack, setLocal st.locals x v, st.output⟩ := by
      simp [stepI, hgetS]
    rw [execGo_cont hstep fuel]
    rw [show st.output ++ ([] : List String) = st.output from by simp]
    rw [show pc + (rS (PStmt.sassign x e)).length = pc + (rE e).length + 1 from by
      rw [show (rS (PStmt.sassign x e)).length = (rE e).length + 1 from by simp [rS]]
      omega]
  | sprint e nl =>
    intro fuel
    rw [evalS] at hev
    rcases hE : evalE st.locals e with _ | v
    · rw [hE] at hev; simp at hev
    rw [hE] at hev
    simp only [Option.map_some'] at hev
    have hp := Option.some.inj hev
    have hl : st.locals = loc2 := congrArg Prod.fst hp
    have ho : [pyStr v] ++ (if nl then ["\n"] else []) = outS := congrArg Prod.snd hp
    subst hl
    subst ho
    cases nl with
    | false =>
      have hrs : rS (PStmt.sprint e false) = rE e ++ [.printItem] := by simp [rS]
      rw [hrs] at hfrag ⊢
      have hfragE : ∀ j, j < (rE e).length → prog.get? (pc + j) = (rE e).get? j := by
        intro j hj
        rw [hfrag j (by simp only [List.length_append, List.length_singleton]; omega)]
        rw [List.get?_append hj]
      have hgetP : prog.get? (pc + (rE e).length) = some .printItem := by
        have := hfrag (rE e).length (by simp)
        rw [List.get?_append_right (le_refl _), Nat.sub_self] at this
        simpa using this
      rw [List.get?_eq_getElem?] at hgetP
      rw [show (rE e ++ [RInstr.printItem]).length + fuel = (rE e).length + (fuel + 1) from by
        simp only [List.length_append, List.length_singleton]; omega]
      rw [exec_E g e prog pc st v hfragE hE (fuel + 1)]
      have hstep : stepI prog g (pc + (rE e).length) { st with stack := v :: st.stack }
          = .cont (pc + (rE e).length + 1) ⟨st.stack, st.locals, st.output ++ [pyStr v]⟩ := by
        simp [stepI, hgetP]
      rw [execGo_cont hstep fuel]
      rw [show pc + (rE e ++ [RInstr.printItem]).length = pc + (rE e).length + 1 from by
        simp only [List.length_append, List.length_singleton]; omega]
      rw [show [pyStr v] ++ (if false then ["\n"] else ([] : List String)) = [pyStr v] from by
        simp]
    | true =>
      have hrs : rS (PStmt.sprint e true) = rE e ++ [.printItem, .printNewline] := by
        simp [rS]
      rw [hrs] at hfrag ⊢
      have hfragE : ∀ j, j < (rE e).length → prog.get? (pc + j) = (rE e).get? j := by
        intro j hj
        rw [hfrag j (by simp only [List.length_append, List.length_cons]; omega)]
        rw [List.get?_append hj]
      have hgetP : prog.get? (pc + (rE e).length) = some .printItem := by
        have := hfrag (rE e).length (by simp)
        rw [List.get?_append_right (le_refl _), Nat.sub_self] at this
        simpa using this
      have hgetN : prog.get? (pc + (rE e).length + 1) = some .printNewline := by
        have := hfrag ((rE e).length + 1) (by simp)
        rw [show pc + ((rE e).length + 1) = pc + (rE e).length + 1 from by omega] at this
        rw [List.get?_append_right (by omega)] at this
        rw [show (rE e).length + 1 - (rE e).length = 1 from by omega] at this
        simpa using this
      rw [List.get?_eq_getElem?] at hgetP hgetN
      rw [show (rE e ++ [RInstr.printItem, RInstr.printNewline]).length + fuel
          = (rE e).length + ((fuel + 1) + 1) from by
        simp only [List.length_append, List.length_cons, List.length_nil]; omega]
      rw [exec_E g e prog pc st v hfragE hE ((fuel + 1) + 1)]
      have hstep : stepI prog g (pc + (rE e).length) { st with stack := v :: st.stack }
          = .cont (pc + (rE e).length + 1) ⟨st.stack, st.locals, st.output ++ [pyStr v]⟩ := by
        simp [stepI, hgetP]
      rw [execGo_cont hstep (fuel + 1)]
      have hstep2 : stepI prog g (pc + (rE e).length + 1)
          (⟨st.stack, st.locals, st.output ++ [pyStr v]⟩ : VMState)
          = .cont (pc + (rE e).length + 1 + 1)
              ⟨st.stack, st.locals, (st.output ++ [pyStr v]) ++ ["\n"]⟩ := by
        simp [stepI, hgetN]
      rw [execGo_cont hstep2 fuel]
      rw [show pc + (rE e ++ [RInstr.printItem, RInstr.printNewline]).length
          = pc + (rE e).length + 1 + 1 from by
        simp only [List.length_append, List.length_cons, List.length_nil]; omega]
      rw [show [pyStr v] ++ (if true then ["\n"] else ([] : List String))
          = [pyStr v] ++ ["\n"] from by simp]
      rw [← List.append_assoc]

/-- Running a statement list's resolved code threads locals and
accumulates output as the reference semantics says. -/
theorem exec_body (g : List (String × PyVal)) :
    ∀ (stmts : List PStmt) (prog : List RInstr) (pc : Nat) (st : VMState)
      (loc2 : List (String × PyVal)) (out : List String),
      (∀ j, j < (rB stmts).length → prog.get? (pc + j) = (rB stmts).get? j) →
      evalBody st.locals stmts = some (loc2, out) →
      ∀ fuel, execGo prog g ((rB stmts).length + fuel) pc st
        = execGo prog g fuel (pc + (rB stmts).length) ⟨st.stack, loc2, st.output ++ out⟩ := by
  intro stmts
  induction stmts with
  | nil =>
    intro prog pc st loc2 out hfrag hev fuel
    rw [evalBody] at hev
    have hp := Option.some.inj hev
    have hl : st.locals = loc2 := congrArg Prod.fst hp
    have ho : ([] : List String) = out := congrArg Prod.snd hp
    subst hl
    subst ho
    rw [show (rB ([] : List PStmt)).length + fuel = fuel from by simp [rB]]
    rw [show pc + (rB ([] : List PStmt)).length = pc from by simp [rB]]
    rw [show st.output ++ ([] : List String) = st.output from by simp]
  | cons s1 rest ih =>
    intro prog pc st loc2 out hfrag hev fuel
    rw [evalBody] at hev
    rcases hS : evalS st.locals s1 with _ | p1
    · rw [hS] at hev; simp at hev
    obtain ⟨l1, o1⟩ := p1
    simp only [hS] at hev
    rcases hR : evalBody l1 rest with _ | p2
    · simp [hR] at hev
    obtain ⟨l2, o2⟩ := p2
    simp only [hR] at hev
    have hp := Option.some.inj hev
    have hl : l2 = loc2 := congrArg Prod.fst hp
    have ho : o1 ++ o2 = out := congrArg Prod.snd hp
    subst hl
    subst ho
    have hrb : rB (s1 :: rest) = rS s1 ++ rB rest := by simp [rB]
    rw [hrb] at hfrag ⊢
    have hfragS : ∀ j, j < (rS s1).length → prog.get? (pc + j) = (rS s1).get? j := by
      intro j hj
      rw [hfrag j (by simp only [List.length_append]; omega), List.get?_append hj]
    have hfragR : ∀ j, j < (rB rest).length →
        prog.get? (pc + (rS s1).length + j) = (rB rest).get? j := by
      intro j hj
      have := hfrag ((rS s1).length + j) (by simp only [List.length_append]; omega)
      rw [show pc + ((rS s1).length + j) = pc + (rS s1).length + j from by omega] at this
      rw [this, List.get?_append_right (by omega),
        show (rS s1).length + j - (rS s1).length = j from by omega]
    rw [show (rS s1 ++ rB rest).length + fuel
        = (rS s1).length + ((rB rest).length + fuel) from by
      simp only [List.length_append]; omega]
    rw [exec_S g s1 prog pc st l1 o1 hfragS hS ((rB rest).length + fuel)]
    rw [ih prog (pc + (rS s1).length) ⟨st.stack, l1, st.output ++ o1⟩ l2 o2 hfragR hR fuel]
    rw [show pc + (rS s1).length + (rB rest).length
        = pc + (rS s1 ++ rB rest).length from by
      simp only [List.length_append]; omega]
    simp [List.append_assoc]

/-- Running a compiled function: when the reference semantics succeeds,
the machine returns the same value having written the same output. -/
theorem exec_compileF (body : List PStmt) (ret : PExpr)
    (g loc loc2 : List (String × PyVal)) (out : List String) (v : PyVal)
    (h1 : evalBody loc body = some (loc2, out)) (h2 : evalE loc2 ret = some v) :
    execFun (compileF body ret) g loc ((rB body).length + ((rE ret).length + 1))
      = some (v, out) := by
  rw [execFun, resolve_compileF]
  have hfragB : ∀ j, j < (rB body).length →
      (rB body ++ (rE ret ++ [RInstr.ret])).get? (0 + j) = (rB body).get? j := by
    intro j hj
    rw [show 0 + j = j from by omega, List.get?_append hj]
  rw [exec_body g body _ 0 ⟨[], loc, []⟩ loc2 out hfragB h1 ((rE ret).length + 1)]
  have hfragR : ∀ j, j < (rE ret).length →
      (rB body ++ (rE ret ++ [RInstr.ret])).get? (0 + (rB body).length + j) = (rE ret).get? j := by
    intro j hj
    rw [show 0 + (rB body).length + j = (rB body).length + j from by omega]
    rw [List.get?_append_right (by omega),
      show (rB body).length + j - (rB body).length = j from by omega]
    rw [List.get?_append hj]
  show execGo (rB body ++ (rE ret ++ [RInstr.ret])) g ((rE ret).length + 1)
    (0 + (rB body).length) ⟨[], loc2, out⟩ = some (v, out)
  rw [exec_E g ret (rB body ++ (rE ret ++ [RInstr.ret])) (0 + (rB body).length)
    ⟨[], loc2, out⟩ v hfragR h2 1]
  have hgetR : (rB body ++ (rE ret ++ [RInstr.ret]))[(rB body).length + (rE ret).length]?
      = some RInstr.ret := by
    rw [← List.get?_eq_getElem?]
    rw [List.get?_append_right (by omega)]
    rw [show (rB body).length + (rE ret).length - (rB body).length
        = (rE ret).length from by omega]
    rw [List.get?_append_right (le_refl _), Nat.sub_self]
    rfl
  exact execGo_ret (by simp [stepI, hgetR]) 0

/-- A continuing step over a non-print instruction leaves the output
alone. -/
theorem stepI_cont_output (prog : List RInstr) (g : List (String × PyVal)) (pc : Nat)
    (st : VMState) (i : RInstr) (pc2 : Nat) (st2 : VMState)
    (hget : prog[pc]? = some i) (hnp : isPrintR i = false)
    (h : stepI prog g pc st = .cont pc2 st2) : st2.output = st.output := by
  cases i <;>
    simp only [stepI, List.get?_eq_getElem?, hget] at h <;>
    (try (repeat' split at h)) <;>
    first
      | (cases h; rfl)
      | contradiction

/-- A returning step reports exactly the output written so far. -/
theorem stepI_ret_output (prog : List RInstr) (g : List (String × PyVal)) (pc : Nat)
    (st : VMState) (i : RInstr) (v : PyVal) (out2 : List String)
    (hget : prog[pc]? = some i)
    (h : stepI prog g pc st = .ret v out2) : out2 = st.output := by
  cases i <;>
    simp only [stepI, List.get?_eq_getElem?, hget] at h <;>
    (try (repeat' split at h)) <;>
    first
      | (cases h; rfl)
      | contradiction

/-- A program with no print instruction never extends the output. -/
theorem execGo_noprint (prog : List RInstr) (g : List (String × PyVal))
    (hnp : ∀ r ∈ prog, isPrintR r = false) :
    ∀ (fuel pc : Nat) (st : VMState) (v : PyVal) (out : List String),
      execGo prog g fuel pc st = some (v, out) → out = st.output := by
  intro fuel
  induction fuel with
  | zero =>
    intro pc st v out h
    rw [execGo] at h
    cases h
  | succ fuel ih =>
    intro pc st v out h
    rw [execGo] at h
    rcases hs : stepI prog g pc st with ⟨pc2, st2⟩ | ⟨v2, out2⟩ | _
    · simp only [hs] at h
      rcases hg : prog[pc]? with _ | i
      · simp [stepI, hg] at hs
      · have hmem : i ∈ prog := by
          obtain ⟨hlt, heq⟩ := List.getElem?_eq_some_iff.mp hg
          rw [← heq]
          exact List.getElem_mem hlt
        have hio := stepI_cont_output prog g pc st i pc2 st2 hg (hnp i hmem) hs
        rw [ih pc2 st2 v out h, hio]
    · simp only [hs] at h
      have ho : out2 = out := congrArg Prod.snd (Option.some.inj h)
      subst ho
      rcases hg : prog[pc]? with _ | i
      · simp [stepI, hg] at hs
      · exact stepI_ret_output prog g pc st i v2 out2 hg hs
    · simp [hs] at h

/-- Resolved expression code is print-free. -/
theorem rE_noprintR (e : PExpr) : ∀ r ∈ rE e, isPrintR r = false := by
  induction e with
  | econst v => intro r hr; simp [rE] at hr; subst hr; rfl
  | evar s => intro r hr; simp [rE] at hr; subst hr; rfl
  | eadd a b iha ihb =>
    intro r hr
    rw [rE] at hr
    simp only [List.mem_append, List.mem_singleton] at hr
    rcases hr with (hr | hr) | hr
    · exact iha r hr
    · exact ihb r hr
    · subst hr; rfl

/-- The resolved code of a print-free statement list is print-free. -/
theorem rB_noprintR (stmts : List PStmt) (h : ∀ st ∈ stmts, isPrintStmt st = false) :
    ∀ r ∈ rB stmts, isPrintR r = false := by
  induction stmts with
  | nil => intro r hr; simp [rB] at hr
  | cons st rest ih =>
    intro r hr
    rw [show rB (st :: rest) = rS st ++ rB rest from by simp [rB]] at hr
    rcases List.mem_append.mp hr with hr | hr
    · cases st with
      | sassign x e =>
        rw [rS] at hr
        rcases List.mem_append.mp hr with hr | hr
        · exact rE_noprintR e r hr
        · simp at hr; subst hr; rfl
      | sprint e nl =>
        have := h (PStmt.sprint e nl) (by simp)
        simp [isPrintStmt] at this
    · exact ih (fun s hs => h s (by simp [hs])) r hr

/-- The resolved program of a compiled print-free body is print-free. -/
theorem compileF_noprintR (body : List PStmt) (ret : PExpr)
    (h : ∀ st ∈ body, isPrintStmt st = false) :
    ∀ r ∈ resolveJumps (compileF body ret), isPrintR r = false := by
  rw [resolve_compileF]
  intro r hr
  rcases List.mem_append.mp hr with hr | hr
  · exact rB_noprintR body h r hr
  · rcases List.mem_append.mp hr with hr | hr
    · exact rE_noprintR ret r hr
    · simp at hr; subst hr; rfl

/-- Dropping a body's print statements drops exactly its output,
preserving the locals evolution. -/
theorem evalBody_filter (body : List PStmt) :
    ∀ (loc loc2 : List (String × PyVal)) (out : List String),
      evalBody loc body = some (loc2, out) →
      evalBody loc (body.filter fun st => !(isPrintStmt st)) = some (loc2, []) := by
  induction body with
  | nil =>
    intro loc loc2 out h
    rw [evalBody] at h
    have hl : loc = loc2 := congrArg Prod.fst (Option.some.inj h)
    subst hl
    rfl
  | cons st rest ih =>
    intro loc loc2 out h
    rw [evalBody] at h
    rcases hS : evalS loc st with _ | p1
    · rw [hS] at h; simp at h
    obtain ⟨l1, o1⟩ := p1
    simp only [hS] at h
    rcases hR : evalBody l1 rest with _ | p2
    · simp [hR] at h
    obtain ⟨l2, o2⟩ := p2
    simp only [hR] at h
    have hl : l2 = loc2 := congrArg Prod.fst (Option.some.inj h)
    subst hl
    cases st with
    | sassign x e =>
      have hS' := hS
      rw [evalS] at hS'
      rcases hE : evalE loc e with _ | v
      · rw [hE] at hS'; simp at hS'
      rw [hE] at hS'
      simp only [Option.map_some'] at hS'
      have ho1 : ([] : List String) = o1 := congrArg Prod.snd (Option.some.inj hS')
      rw [show (PStmt.sassign x e :: rest).filter (fun st => !(isPrintStmt st))
          = PStmt.sassign x e :: rest.filter (fun st => !(isPrintStmt st)) from by
        simp [List.filter_cons, isPrintStmt]]
      rw [evalBody]
      simp only [hS, ih l1 l2 o2 hR]
      rw [← ho1]
      rfl
    | sprint e nl =>
      have hS' := hS
      rw [evalS] at hS'
      rcases hE : evalE loc e with _ | v
      · rw [hE] at hS'; simp at hS'
      rw [hE] at hS'
      simp only [Option.map_some'] at hS'
      have hl1 : loc = l1 := congrArg Prod.fst (Option.some.inj hS')
      subst hl1
      rw [show (PStmt.sprint e nl :: rest).filter (fun st => !(isPrintStmt st))
          = rest.filter (fun st => !(isPrintStmt st)) from by
        simp [List.filter_cons, isPrintStmt]]
      exact ih loc l2 o2 hR

/-- C3 (amended): on straight-line assignment/print bodies over pure
branch-free operand expressions, `__unprint__` removes exactly the
compiled print statements; the stripped function writes no output
whenever it returns, and whenever the body's reference evaluation
succeeds both versions return the same value, the original writing
exactly the statements' output. -/
theorem C3_unprint_straightline (body : List PStmt) (ret : PExpr) :
    unprint (compileF body ret)
      = compileF (body.filter fun st => !(isPrintStmt st)) ret
    ∧ (∀ (g loc : List (String × PyVal)) (fuel : Nat) (v : PyVal) (out : List String),
        execFun (unprint (compileF body ret)) g loc fuel = some (v, out) → out = [])
    ∧ (∀ (g loc loc2 : List (String × PyVal)) (out : List String) (v : PyVal),
        evalBody loc body = some (loc2, out) → evalE loc2 ret = some v →
          (∃ fuel, execFun (compileF body ret) g loc fuel = some (v, out))
          ∧ (∃ fuel, execFun (unprint (compileF body ret)) g loc fuel = some (v, []))) := by
  refine ⟨unprint_compileF body ret, ?_, ?_⟩
  · intro g loc fuel v out h
    rw [unprint_compileF body ret, execFun] at h
    have hpf : ∀ st ∈ body.filter (fun st => !(isPrintStmt st)), isPrintStmt st = false := by
      intro st hst
      have := List.of_mem_filter hst
      simpa using this
    exact execGo_noprint _ g (compileF_noprintR _ ret hpf) fuel 0 ⟨[], loc, []⟩ v out h
  · intro g loc loc2 out v h1 h2
    refine ⟨⟨_, exec_compileF body ret g loc loc2 out v h1 h2⟩, ?_⟩
    rw [unprint_compileF body ret]
    exact ⟨_, exec_compileF _ ret g loc loc2 [] v (evalBody_filter body loc loc2 out h1) h2⟩

/-- C3 witness: on `f(x): print x ; print 'hello, world!',` with
`return None`, stripping deletes both prints, the original run at
`x = 10` writes `10\nhello, world!` returning `None`, and the stripped
run writes nothing and also returns `None`. -/
theorem C3_unprint_straightline_witness :
    (unprint (compileF c3Body c3Ret) = compileF [] c3Ret)
    ∧ (∃ fuel, execFun (compileF c3Body c3Ret) [] [("x", .int 10)] fuel
        = some (.pynone, ["10", "\n", "hello, world!"]))
    ∧ (∃ fuel, execFun (unprint (compileF c3Body c3Ret)) [] [("x", .int 10)] fuel
        = some (.pynone, [])) := by
  obtain ⟨h1, _h2, h3⟩ := C3_unprint_straightline c3Body c3Ret
  have h4 := h3 [] [("x", .int 10)] [("x", .int 10)] ["10", "\n", "hello, world!"]
    .pynone (by decide) (by decide)
  have h5 : c3Body.filter (fun st => !(isPrintStmt st)) = [] := rfl
  rw [h5] at h1
  exact ⟨h1, h4.1, h4.2⟩

end BytecodeToys
